import Mathlib

/-!
Verification of the platform configuration engine (`platform_cli/config.py`).

The Python source is shallowly embedded below: pure functions become Lean
functions over `List`-based association maps, fallible code returns `Except`,
and the stateful override store becomes explicit state passing plus an event
trace.  The helper modules `props`, `protected_file_path` and `template` are
part of the repository but are not present under `src/`; the definitions that
stand in for them are modelled from the specification and say so in their doc
comments.
-/

namespace PlatformCli

/-! ## Records (namedtuples from `config.py`) -/

/-- Embeds `Default = collections.namedtuple('Default', ['name', 'value'])`. -/
structure Default where
  name : String
  value : String
  deriving DecidableEq

/-- Embeds `Override = collections.namedtuple('Override', ['name', 'value'])`. -/
structure Override where
  name : String
  value : String
  deriving DecidableEq

/-- Embeds `Suggestion = collections.namedtuple('Suggestion', ['name', 'value', 'why'])`. -/
structure Suggestion where
  name : String
  value : String
  why : String
  deriving DecidableEq

/-- Embeds `Doc = collections.namedtuple('Doc', ['name', 'doc'])`. -/
structure Doc where
  name : String
  doc : String
  deriving DecidableEq

/-! ## Association-map primitives

Python `dict`s keyed by variable name are embedded as `List (String × α)`
with `lookupA` as `dict.get`; every dict built by the source is constructed
with duplicate keys ruled out by the validator, so the list contents
determine the mapping. -/

/-- Lookup in an association list: the embedding of `d.get(k)`. -/
def lookupA {α : Type} : List (String × α) → String → Option α
  | [], _ => none
  | p :: rest, k => if p.1 = k then some p.2 else lookupA rest k

@[simp] theorem lookupA_nil {α : Type} (k : String) : lookupA ([] : List (String × α)) k = none := rfl

theorem lookupA_cons {α : Type} (p : String × α) (rest : List (String × α)) (k : String) :
    lookupA (p :: rest) k = if p.1 = k then some p.2 else lookupA rest k := rfl

theorem lookupA_eq_none {α : Type} (l : List (String × α)) (k : String) :
    lookupA l k = none ↔ k ∉ l.map Prod.fst := by
  induction l with
  | nil => simp
  | cons p rest ih =>
    rw [lookupA_cons]
    by_cases h : p.1 = k
    · subst h; simp
    · simp only [if_neg h, ih, List.map_cons, List.mem_cons]
      constructor
      · intro hn hor
        rcases hor with hor | hor
        · exact h hor.symm
        · exact hn hor
      · intro hn hk
        exact hn (Or.inr hk)

theorem lookupA_mem {α : Type} {l : List (String × α)} {k : String} {v : α}
    (h : lookupA l k = some v) : (k, v) ∈ l := by
  induction l with
  | nil => simp [lookupA] at h
  | cons p rest ih =>
    rw [lookupA_cons] at h
    rw [List.mem_cons]
    by_cases hp : p.1 = k
    · simp only [if_pos hp] at h
      left
      cases p
      simp_all
    · simp only [if_neg hp] at h
      right
      exact ih h

theorem lookupA_of_mem_nodup {α : Type} {l : List (String × α)} {k : String} {v : α}
    (hnd : (l.map Prod.fst).Nodup) (hm : (k, v) ∈ l) : lookupA l k = some v := by
  induction l with
  | nil => simp at hm
  | cons p rest ih =>
    simp only [List.map_cons, List.nodup_cons] at hnd
    rcases List.mem_cons.mp hm with hm | hm
    · rw [← hm]; simp [lookupA_cons]
    · have hk : k ∈ rest.map Prod.fst := List.mem_map_of_mem Prod.fst hm
      have hne : p.1 ≠ k := fun he => hnd.1 (he ▸ hk)
      simp [lookupA_cons, hne, ih hnd.2 hm]

/-- Lookup commutes with a key-preserving `map` over the entries. -/
theorem lookupA_map_shape {α β : Type} (g : String → α → β) (l : List (String × α)) (k : String) :
    lookupA (l.map fun p => (p.1, g p.1 p.2)) k = (lookupA l k).map (g k) := by
  induction l with
  | nil => rfl
  | cons p rest ih =>
    by_cases h : p.1 = k <;> simp [lookupA_cons, h, ih]

/-- Lookup commutes with a key-preserving `filterMap`, given duplicate-free keys. -/
theorem lookupA_filterMap_shape {α β : Type} (h : String → α → Option β)
    (l : List (String × α)) (k : String) (hnd : (l.map Prod.fst).Nodup) :
    lookupA (l.filterMap fun p => (h p.1 p.2).map fun b => (p.1, b)) k =
      (lookupA l k).bind (h k) := by
  induction l with
  | nil => rfl
  | cons p rest ih =>
    simp only [List.map_cons, List.nodup_cons] at hnd
    rw [List.filterMap_cons]
    cases hb : (h p.1 p.2).map fun b => (p.1, b) with
    | none =>
      by_cases hk : p.1 = k
      · subst hk
        have : lookupA (rest.filterMap fun p2 => (h p2.1 p2.2).map fun b => (p2.1, b)) p.1 = none := by
          rw [lookupA_eq_none]
          intro hmem
          rcases List.mem_map.mp hmem with ⟨q, hq, hfst⟩
          rcases List.mem_filterMap.mp hq with ⟨a, ha, hqa⟩
          rcases Option.map_eq_some.mp hqa with ⟨b, _, hqb⟩
          apply hnd.1
          rw [← hfst, ← hqb]
          exact List.mem_map_of_mem Prod.fst ha
        rw [this, lookupA_cons, if_pos rfl]
        cases ho : h p.1 p.2 with
        | none => simp [ho]
        | some b => rw [ho] at hb; simp at hb
      · rw [ih hnd.2, lookupA_cons, if_neg hk]
    | some q =>
      rcases Option.map_eq_some.mp hb with ⟨b, hob, hq⟩
      subst hq
      by_cases hk : p.1 = k
      · subst hk
        rw [lookupA_cons, if_pos rfl, lookupA_cons, if_pos rfl]
        simp [hob]
      · rw [lookupA_cons, if_neg hk, lookupA_cons, if_neg hk, ih hnd.2]

/-! ## Name validator (`validate_and_map_by_name`) -/

/-- Does a character list contain three consecutive underscores?
Embeds the membership test of the string constant of three underscores. -/
def hasTripleUnderscore : List Char → Bool
  | [] => false
  | '_' :: '_' :: '_' :: _ => true
  | _ :: rest => hasTripleUnderscore rest

/-- Does a character list contain a space?  Embeds the test for a space in the name. -/
def hasSpace (l : List Char) : Bool := l.any (· = ' ')

/-- A name passes both character checks of `validate_and_map_by_name`. -/
def validNameB (s : String) : Bool :=
  !hasTripleUnderscore s.data && !hasSpace s.data

/-- The single module-level `Error` exception, split by its distinct messages:
the two invalid-name messages carry the offending name, the duplicate message
carries both conflicting records (as the Python format string does). -/
inductive ValidationError (α : Type) where
  | invalidTripleUnderscore (name : String)
  | invalidSpace (name : String)
  | duplicateName (var existing : α)
  deriving DecidableEq

/-- Loop body of `validate_and_map_by_name`: walk the records in order,
rejecting triple underscores, then spaces, then duplicates, otherwise
inserting into the accumulated by-name map. -/
def validateAux {α : Type} (nameOf : α → String) (acc : List (String × α)) :
    List α → Except (ValidationError α) (List (String × α))
  | [] => .ok acc
  | var :: rest =>
    if hasTripleUnderscore (nameOf var).data then
      .error (.invalidTripleUnderscore (nameOf var))
    else if hasSpace (nameOf var).data then
      .error (.invalidSpace (nameOf var))
    else
      match lookupA acc (nameOf var) with
      | some existing => .error (.duplicateName var existing)
      | none => validateAux nameOf (acc ++ [(nameOf var, var)]) rest

/-- Embeds `validate_and_map_by_name(variables)`: map an iterable of records
by their `name` attribute, disallowing duplicate names, spaces and triple
underscores. -/
def validateAndMapByName {α : Type} (nameOf : α → String) (vars : List α) :
    Except (ValidationError α) (List (String × α)) :=
  validateAux nameOf [] vars

/-- The canonical by-name pairing of a record list. -/
def pairsOf {α : Type} (nameOf : α → String) (vars : List α) : List (String × α) :=
  vars.map fun v => (nameOf v, v)

theorem validateAux_ok_eq {α : Type} (nameOf : α → String) :
    ∀ (vars : List α) (acc m : List (String × α)),
      validateAux nameOf acc vars = .ok m → m = acc ++ pairsOf nameOf vars := by
  intro vars
  induction vars with
  | nil => intro acc m h; simp [validateAux, pairsOf] at h; simp [pairsOf, h]
  | cons var rest ih =>
    intro acc m h
    rw [validateAux] at h
    by_cases h1 : hasTripleUnderscore (nameOf var).data <;> simp [h1] at h
    by_cases h2 : hasSpace (nameOf var).data <;> simp [h2] at h
    cases hl : lookupA acc (nameOf var) with
    | some existing => rw [hl] at h; simp at h
    | none =>
      rw [hl] at h
      have := ih (acc ++ [(nameOf var, var)]) m h
      simp [pairsOf] at this ⊢
      simp [this]

theorem validateAux_ok_nodup {α : Type} (nameOf : α → String) :
    ∀ (vars : List α) (acc m : List (String × α)),
      (acc.map Prod.fst).Nodup →
      validateAux nameOf acc vars = .ok m → (m.map Prod.fst).Nodup := by
  intro vars
  induction vars with
  | nil => intro acc m hnd h; simp [validateAux] at h; rwa [← h]
  | cons var rest ih =>
    intro acc m hnd h
    rw [validateAux] at h
    by_cases h1 : hasTripleUnderscore (nameOf var).data <;> simp [h1] at h
    by_cases h2 : hasSpace (nameOf var).data <;> simp [h2] at h
    cases hl : lookupA acc (nameOf var) with
    | some existing => rw [hl] at h; simp at h
    | none =>
      rw [hl] at h
      refine ih (acc ++ [(nameOf var, var)]) m ?_ h
      rw [List.map_append]
      simp only [List.map_cons, List.map_nil]
      rw [List.nodup_append]
      refine ⟨hnd, List.nodup_singleton _, ?_⟩
      intro a ha hb
      simp at hb
      subst hb
      exact ((lookupA_eq_none acc (nameOf var)).mp hl) ha

/-- On success the validator returns exactly the by-name pairing, with
duplicate-free keys. -/
theorem validate_ok_eq {α : Type} (nameOf : α → String) (vars : List α)
    (m : List (String × α)) (h : validateAndMapByName nameOf vars = .ok m) :
    m = pairsOf nameOf vars ∧ (m.map Prod.fst).Nodup := by
  refine ⟨?_, validateAux_ok_nodup nameOf vars [] m (by simp) h⟩
  simpa using validateAux_ok_eq nameOf vars [] m h

theorem validate_ok_of_wf {α : Type} (nameOf : α → String) :
    ∀ (vars : List α) (acc : List (String × α)),
      (∀ v ∈ vars, validNameB (nameOf v)) →
      (vars.map nameOf).Nodup →
      (∀ v ∈ vars, lookupA acc (nameOf v) = none) →
      validateAux nameOf acc vars = .ok (acc ++ pairsOf nameOf vars) := by
  intro vars
  induction vars with
  | nil => intro acc _ _ _; simp [validateAux, pairsOf]
  | cons var rest ih =>
    intro acc hvalid hnd hdisj
    have hv := hvalid var (by simp)
    simp only [validNameB, Bool.and_eq_true, Bool.not_eq_true'] at hv
    rw [validateAux, hv.1]
    simp only [Bool.false_eq_true, if_false]
    rw [hv.2]
    simp only [Bool.false_eq_true, if_false]
    rw [hdisj var (by simp)]
    have step := ih (acc ++ [(nameOf var, var)])
      (fun v hv2 => hvalid v (by simp [hv2]))
      (by simp at hnd; exact hnd.2)
      (by
        intro v hv2
        rw [lookupA_eq_none]
        simp only [List.map_append, List.map_cons, List.map_nil, List.mem_append,
          List.mem_singleton]
        push_neg
        constructor
        · exact (lookupA_eq_none acc (nameOf v)).mp (hdisj v (by simp [hv2]))
        · simp at hnd
          intro he
          exact hnd.1 v hv2 he)
    rw [step]
    simp [pairsOf]

theorem validateAux_ok_valid {α : Type} (nameOf : α → String) :
    ∀ (vars : List α) (acc m : List (String × α)),
      validateAux nameOf acc vars = .ok m → ∀ v ∈ vars, validNameB (nameOf v) := by
  intro vars
  induction vars with
  | nil => intro acc m _ v hv; simp at hv
  | cons var rest ih =>
    intro acc m h v hv
    rw [validateAux] at h
    by_cases h1 : hasTripleUnderscore (nameOf var).data <;> simp [h1] at h
    by_cases h2 : hasSpace (nameOf var).data <;> simp [h2] at h
    cases hl : lookupA acc (nameOf var) with
    | some existing => rw [hl] at h; simp at h
    | none =>
      rw [hl] at h
      rcases List.mem_cons.mp hv with hv | hv
      · subst hv; simp [validNameB, h1, h2]
      · exact ih (acc ++ [(nameOf var, var)]) m h v hv

theorem validateAux_error_triple {α : Type} (nameOf : α → String) :
    ∀ (vars : List α) (acc : List (String × α)) (n : String),
      validateAux nameOf acc vars = .error (.invalidTripleUnderscore n) →
      ∃ v ∈ vars, nameOf v = n ∧ hasTripleUnderscore n.data = true := by
  intro vars
  induction vars with
  | nil => intro acc n h; simp [validateAux] at h
  | cons var rest ih =>
    intro acc n h
    rw [validateAux] at h
    by_cases h1 : hasTripleUnderscore (nameOf var).data
    · simp [h1] at h
      exact ⟨var, by simp, h, by rw [h] at h1; exact h1⟩
    · simp [h1] at h
      by_cases h2 : hasSpace (nameOf var).data <;> simp [h2] at h
      cases hl : lookupA acc (nameOf var) with
      | some existing => rw [hl] at h; simp at h
      | none =>
        rw [hl] at h
        rcases ih (acc ++ [(nameOf var, var)]) n h with ⟨v, hv, hn, ht⟩
        exact ⟨v, by simp [hv], hn, ht⟩

theorem validateAux_error_space {α : Type} (nameOf : α → String) :
    ∀ (vars : List α) (acc : List (String × α)) (n : String),
      validateAux nameOf acc vars = .error (.invalidSpace n) →
      ∃ v ∈ vars, nameOf v = n ∧ hasSpace n.data = true := by
  intro vars
  induction vars with
  | nil => intro acc n h; simp [validateAux] at h
  | cons var rest ih =>
    intro acc n h
    rw [validateAux] at h
    by_cases h1 : hasTripleUnderscore (nameOf var).data <;> simp [h1] at h
    by_cases h2 : hasSpace (nameOf var).data
    · simp [h2] at h
      exact ⟨var, by simp, h, by rw [h] at h2; exact h2⟩
    · simp [h2] at h
      cases hl : lookupA acc (nameOf var) with
      | some existing => rw [hl] at h; simp at h
      | none =>
        rw [hl] at h
        rcases ih (acc ++ [(nameOf var, var)]) n h with ⟨v, hv, hn, ht⟩
        exact ⟨v, by simp [hv], hn, ht⟩

theorem validateAux_error_dup {α : Type} (nameOf : α → String) :
    ∀ (vars : List α) (acc : List (String × α)) (a b : α),
      (∀ p ∈ acc, p.1 = nameOf p.2) →
      validateAux nameOf acc vars = .error (.duplicateName a b) →
      a ∈ vars ∧ (b ∈ acc.map Prod.snd ∨ b ∈ vars) ∧ nameOf a = nameOf b ∧
        ¬ (acc.map Prod.fst ++ vars.map nameOf).Nodup := by
  intro vars
  induction vars with
  | nil => intro acc a b _ h; simp [validateAux] at h
  | cons var rest ih =>
    intro acc a b hacc h
    rw [validateAux] at h
    by_cases h1 : hasTripleUnderscore (nameOf var).data <;> simp [h1] at h
    by_cases h2 : hasSpace (nameOf var).data <;> simp [h2] at h
    cases hl : lookupA acc (nameOf var) with
    | some existing =>
      rw [hl] at h
      simp only [Except.error.injEq, ValidationError.duplicateName.injEq] at h
      obtain ⟨rfl, rfl⟩ := h
      have hmem : (nameOf var, existing) ∈ acc := lookupA_mem hl
      refine ⟨by simp, Or.inl (by simpa using List.mem_map_of_mem Prod.snd hmem), ?_, ?_⟩
      · exact hacc (nameOf var, existing) hmem
      · intro hnd
        rw [List.nodup_append] at hnd
        exact hnd.2.2 (List.mem_map_of_mem Prod.fst hmem)
          (List.mem_map_of_mem nameOf (List.mem_cons_self var rest))
    | none =>
      rw [hl] at h
      have hinv : ∀ p ∈ acc ++ [(nameOf var, var)], p.1 = nameOf p.2 := by
        intro p hp
        rcases List.mem_append.mp hp with hp | hp
        · exact hacc p hp
        · simp at hp; subst hp; rfl
      rcases ih (acc ++ [(nameOf var, var)]) a b hinv h with ⟨ha, hb, hn, hnd⟩
      refine ⟨by simp [ha], ?_, hn, ?_⟩
      · rcases hb with hb | hb
        · rw [List.map_append] at hb
          rcases List.mem_append.mp hb with hb | hb
          · exact Or.inl hb
          · simp at hb; exact Or.inr (by simp [hb])
        · exact Or.inr (by simp [hb])
      · intro hnd2
        apply hnd
        rw [List.map_append]
        simpa [List.append_assoc] using hnd2

/-- Claim C3: for every input collection, `validate_and_map_by_name` fails
with the distinct invalid-name error whenever some name contains a space or
three consecutive underscores, fails with the distinct duplicate-name error
(carrying both conflicting records) whenever two records share a name, and
otherwise returns the mapping from name to record (the function is pure, so
there are no side effects to model). -/
theorem validate_and_map_by_name_spec {α : Type} (nameOf : α → String) (vars : List α) :
    ((∀ v ∈ vars, validNameB (nameOf v)) → (vars.map nameOf).Nodup →
      ∃ m, validateAndMapByName nameOf vars = .ok m ∧
        (∀ v ∈ vars, lookupA m (nameOf v) = some v) ∧
        (∀ k r, lookupA m k = some r → r ∈ vars ∧ nameOf r = k)) ∧
    ((∃ v ∈ vars, validNameB (nameOf v) = false) →
      ∃ e, validateAndMapByName nameOf vars = .error e) ∧
    (¬ (vars.map nameOf).Nodup →
      ∃ e, validateAndMapByName nameOf vars = .error e) ∧
    (∀ n, validateAndMapByName nameOf vars = .error (.invalidTripleUnderscore n) →
      ∃ v ∈ vars, nameOf v = n ∧ hasTripleUnderscore n.data = true) ∧
    (∀ n, validateAndMapByName nameOf vars = .error (.invalidSpace n) →
      ∃ v ∈ vars, nameOf v = n ∧ hasSpace n.data = true) ∧
    (∀ a b, validateAndMapByName nameOf vars = .error (.duplicateName a b) →
      a ∈ vars ∧ b ∈ vars ∧ nameOf a = nameOf b ∧ ¬ (vars.map nameOf).Nodup) ∧
    ((vars.map nameOf).Nodup → (∃ v ∈ vars, validNameB (nameOf v) = false) →
      ∃ n, (validateAndMapByName nameOf vars = .error (.invalidTripleUnderscore n) ∨
            validateAndMapByName nameOf vars = .error (.invalidSpace n)) ∧
        validNameB n = false) ∧
    ((∀ v ∈ vars, validNameB (nameOf v)) → ¬ (vars.map nameOf).Nodup →
      ∃ a b, validateAndMapByName nameOf vars = .error (.duplicateName a b) ∧
        a ∈ vars ∧ b ∈ vars ∧ nameOf a = nameOf b) := by
  have hok : (∀ v ∈ vars, validNameB (nameOf v)) → (vars.map nameOf).Nodup →
      validateAndMapByName nameOf vars = .ok (pairsOf nameOf vars) := by
    intro hvalid hnd
    have := validate_ok_of_wf nameOf vars [] hvalid hnd (by intro v _; simp)
    simpa [validateAndMapByName] using this
  have hdup : ∀ a b, validateAndMapByName nameOf vars = .error (.duplicateName a b) →
      a ∈ vars ∧ b ∈ vars ∧ nameOf a = nameOf b ∧ ¬ (vars.map nameOf).Nodup := by
    intro a b h
    rcases validateAux_error_dup nameOf vars [] a b (by simp) h with ⟨ha, hb, hn, hnd⟩
    refine ⟨ha, ?_, hn, by simpa using hnd⟩
    rcases hb with hb | hb
    · simp at hb
    · exact hb
  have herr : ((∃ v ∈ vars, validNameB (nameOf v) = false) ∨ ¬ (vars.map nameOf).Nodup) →
      ∃ e, validateAndMapByName nameOf vars = .error e := by
    intro hbad
    cases hres : validateAndMapByName nameOf vars with
    | error e => exact ⟨e, rfl⟩
    | ok m =>
      exfalso
      rcases hbad with ⟨v, hv, hfalse⟩ | hnd
      · have := validateAux_ok_valid nameOf vars [] m hres v hv
        rw [this] at hfalse
        exact Bool.true_eq_false.mp hfalse
      · rcases validate_ok_eq nameOf vars m hres with ⟨hm, hmnd⟩
        apply hnd
        have : m.map Prod.fst = vars.map nameOf := by simp [hm, pairsOf]
        rwa [this] at hmnd
  refine ⟨?_, fun h => herr (Or.inl h), fun h => herr (Or.inr h),
    validateAux_error_triple nameOf vars [], validateAux_error_space nameOf vars [],
    hdup, ?_, ?_⟩
  · intro hvalid hnd
    refine ⟨pairsOf nameOf vars, hok hvalid hnd, ?_, ?_⟩
    · intro v hv
      apply lookupA_of_mem_nodup
      · simpa [pairsOf, Function.comp] using hnd
      · simp only [pairsOf, List.mem_map]
        exact ⟨v, hv, rfl⟩
    · intro k r hr
      have hmem := lookupA_mem hr
      simp only [pairsOf, List.mem_map] at hmem
      rcases hmem with ⟨v, hv, heq⟩
      have hk : nameOf v = k := congrArg Prod.fst heq
      have hvr : v = r := congrArg Prod.snd heq
      subst hvr
      exact ⟨hv, hk⟩
  · intro hnd hbad
    rcases herr (Or.inl hbad) with ⟨e, he⟩
    cases e with
    | invalidTripleUnderscore n =>
      rcases validateAux_error_triple nameOf vars [] n he with ⟨v, _, hn, ht⟩
      exact ⟨n, Or.inl he, by simp [validNameB, ht]⟩
    | invalidSpace n =>
      rcases validateAux_error_space nameOf vars [] n he with ⟨v, _, hn, ht⟩
      exact ⟨n, Or.inr he, by simp [validNameB, ht]⟩
    | duplicateName a b =>
      rcases hdup a b he with ⟨_, _, _, hnodup⟩
      exact absurd hnd hnodup
  · intro hvalid hnd
    rcases herr (Or.inr hnd) with ⟨e, he⟩
    cases e with
    | invalidTripleUnderscore n =>
      rcases validateAux_error_triple nameOf vars [] n he with ⟨v, hv, hn, ht⟩
      have := hvalid v hv
      rw [hn] at this
      simp [validNameB, ht] at this
    | invalidSpace n =>
      rcases validateAux_error_space nameOf vars [] n he with ⟨v, hv, hn, ht⟩
      have := hvalid v hv
      rw [hn] at this
      simp [validNameB, ht] at this
    | duplicateName a b =>
      rcases hdup a b he with ⟨ha, hb, hn, _⟩
      exact ⟨a, b, he, ha, hb, hn⟩

/-- Witness for claim C3: concrete runs of the validator.  A duplicate pair
of overrides produces the duplicate-name error carrying both records, and a
well-formed singleton validates to its by-name mapping. -/
theorem validate_and_map_by_name_spec_witness :
    ((Override.mk "a" "2") ∈ [Override.mk "a" "1", Override.mk "a" "2"] ∧
      (Override.mk "a" "1") ∈ [Override.mk "a" "1", Override.mk "a" "2"] ∧
      Override.name (Override.mk "a" "2") = Override.name (Override.mk "a" "1") ∧
      ¬ ([Override.mk "a" "1", Override.mk "a" "2"].map Override.name).Nodup) ∧
    lookupA (pairsOf Override.name [Override.mk "a" "1"]) "a" = some (Override.mk "a" "1") := by
  constructor
  · exact (validate_and_map_by_name_spec Override.name
      [Override.mk "a" "1", Override.mk "a" "2"]).2.2.2.2.2.1
      (Override.mk "a" "2") (Override.mk "a" "1") rfl
  · have h1 := (validate_and_map_by_name_spec Override.name [Override.mk "a" "1"]).1
      (by decide) (by decide)
    rcases h1 with ⟨m, hm, hl, _⟩
    have hmeq : m = pairsOf Override.name [Override.mk "a" "1"] :=
      (validate_ok_eq Override.name _ m hm).1
    rw [← hmeq]
    exact hl (Override.mk "a" "1") (by simp)

/-! ## Template engine (`template.render_values_in_template_map`)

The `template` module is part of this repository but is not under `src/`;
the definitions below are modelled from the specification. -/

/-- Modelled from the spec: the `TemplateCycleError` raised when circular
references keep the substitution from reaching a fixed point (the cycle
payload is not needed by any claim and is omitted). -/
inductive TemplateError where
  | cycle
  deriving DecidableEq

/-- Split a character list at the first closing double brace, returning the
characters before it and the remainder after it. -/
def splitAtClose : List Char → Option (List Char × List Char)
  | [] => none
  | '}' :: '}' :: rest => some ([], rest)
  | c :: rest => (splitAtClose rest).map fun p => (c :: p.1, p.2)

/-- Modelled from the spec: one substitution sweep over a single value.
Each double-braced reference whose name is a key of the mapping is replaced
by that key's value; a reference to an unknown name is left unexpanded
(the policy the spec leaves open); unterminated opening braces are left
as literal text.  `fuel` only guards termination and is initialized to the
length of the scanned text, which one sweep never needs to exceed. -/
def substAux (m : List (String × String)) : ℕ → List Char → List Char
  | _, [] => []
  | 0, l => l
  | Nat.succ fuel, c :: rest =>
    if c = '{' ∧ rest.head? = some '{' then
      match splitAtClose rest.tail with
      | some (nm, after) =>
        match lookupA m (String.mk nm) with
        | some v => v.data ++ substAux m fuel after
        | none => '{' :: '{' :: (nm ++ '}' :: '}' :: substAux m fuel after)
      | none => c :: rest
    else c :: substAux m fuel rest

/-- One substitution sweep over one string value. -/
def substValue (m : List (String × String)) (s : String) : String :=
  String.mk (substAux m s.data.length s.data)

/-- Modelled from the spec: one full substitution pass over the mapping,
rewriting every value against the mapping itself; a new mapping is returned
and the input is not mutated. -/
def passTemplateMap (m : List (String × String)) : List (String × String) :=
  m.map fun p => (p.1, substValue m p.2)

/-- Iterate substitution passes until a fixed point, failing with the cycle
error when the pass budget is exhausted without convergence. -/
def renderLoop : ℕ → List (String × String) → Except TemplateError (List (String × String))
  | 0, m => if passTemplateMap m = m then .ok m else .error .cycle
  | fuel + 1, m => if passTemplateMap m = m then .ok m else renderLoop fuel (passTemplateMap m)

/-- Modelled from the spec: `template.render_values_in_template_map` expands
all double-braced references in the value mapping, iterating passes to a
fixed point (one pass per entry suffices for acyclic references) and failing
with `TemplateCycleError` on circular references. -/
def renderValuesInTemplateMap (m : List (String × String)) :
    Except TemplateError (List (String × String)) :=
  renderLoop m.length m

/-- A string with no opening brace at all (hence no template reference). -/
def noBrace (s : String) : Bool := s.data.all (· ≠ '{')

theorem substAux_noBrace (m : List (String × String)) :
    ∀ (l : List Char), l.all (· ≠ '{') → ∀ fuel, substAux m fuel l = l := by
  intro l
  induction l with
  | nil => intro _ fuel; cases fuel <;> rfl
  | cons c rest ih =>
    intro hnb fuel
    simp only [List.all_cons, Bool.and_eq_true, decide_eq_true_eq] at hnb
    cases fuel with
    | zero => rfl
    | succ fuel =>
      rw [substAux, if_neg (fun hc => hnb.1 hc.1)]
      rw [ih (by simpa using hnb.2) fuel]

theorem substValue_noBrace (m : List (String × String)) (s : String)
    (h : noBrace s = true) : substValue m s = s := by
  rw [substValue, substAux_noBrace m s.data h s.data.length]

theorem passTemplateMap_fst (m : List (String × String)) :
    (passTemplateMap m).map Prod.fst = m.map Prod.fst := by
  simp [passTemplateMap]

theorem lookupA_passTemplateMap (m : List (String × String)) (k : String) :
    lookupA (passTemplateMap m) k = (lookupA m k).map (substValue m) := by
  simpa [passTemplateMap] using lookupA_map_shape (fun _ v => substValue m v) m k

theorem renderLoop_fixed (m : List (String × String)) (h : passTemplateMap m = m) :
    ∀ fuel, renderLoop fuel m = .ok m := by
  intro fuel
  cases fuel <;> simp [renderLoop, h]

theorem renderLoop_ok_fixed :
    ∀ (fuel : ℕ) (m m2 : List (String × String)),
      renderLoop fuel m = .ok m2 → passTemplateMap m2 = m2 := by
  intro fuel
  induction fuel with
  | zero =>
    intro m m2 h
    rw [renderLoop] at h
    by_cases hf : passTemplateMap m = m
    · rw [if_pos hf] at h
      simp at h
      rw [← h]
      exact hf
    · rw [if_neg hf] at h
      simp at h
  | succ fuel ih =>
    intro m m2 h
    rw [renderLoop] at h
    by_cases hf : passTemplateMap m = m
    · rw [if_pos hf] at h
      simp at h
      rw [← h]
      exact hf
    · rw [if_neg hf] at h
      exact ih (passTemplateMap m) m2 h

theorem renderLoop_fst :
    ∀ (fuel : ℕ) (m m2 : List (String × String)),
      renderLoop fuel m = .ok m2 → m2.map Prod.fst = m.map Prod.fst := by
  intro fuel
  induction fuel with
  | zero =>
    intro m m2 h
    rw [renderLoop] at h
    by_cases hf : passTemplateMap m = m <;> simp [hf] at h
    rw [← h]
  | succ fuel ih =>
    intro m m2 h
    rw [renderLoop] at h
    by_cases hf : passTemplateMap m = m
    · rw [if_pos hf] at h
      simp at h
      rw [← h]
    · rw [if_neg hf] at h
      rw [ih (passTemplateMap m) m2 h, passTemplateMap_fst]

theorem renderLoop_noBrace_lookup :
    ∀ (fuel : ℕ) (m m2 : List (String × String)) (k v : String),
      renderLoop fuel m = .ok m2 → lookupA m k = some v → noBrace v = true →
      lookupA m2 k = some v := by
  intro fuel
  induction fuel with
  | zero =>
    intro m m2 k v h hl hnb
    rw [renderLoop] at h
    by_cases hf : passTemplateMap m = m <;> simp [hf] at h
    rw [← h]
    exact hl
  | succ fuel ih =>
    intro m m2 k v h hl hnb
    rw [renderLoop] at h
    by_cases hf : passTemplateMap m = m
    · rw [if_pos hf] at h
      simp at h
      rw [← h]
      exact hl
    · rw [if_neg hf] at h
      refine ih (passTemplateMap m) m2 k v h ?_ hnb
      rw [lookupA_passTemplateMap, hl]
      simp [substValue_noBrace m v hnb]

theorem render_ok_fst (m m2 : List (String × String))
    (h : renderValuesInTemplateMap m = .ok m2) : m2.map Prod.fst = m.map Prod.fst :=
  renderLoop_fst m.length m m2 h

/-- Claim C5: template substitution is idempotent.  A mapping on which a
substitution pass changes nothing (an already-fully-substituted mapping)
renders to itself, and every successful output of the engine is such a fixed
point, so re-running the engine on its own output returns the same mapping. -/
theorem render_values_idempotent :
    (∀ m, passTemplateMap m = m → renderValuesInTemplateMap m = .ok m) ∧
    (∀ m m2, renderValuesInTemplateMap m = .ok m2 →
      renderValuesInTemplateMap m2 = .ok m2) := by
  constructor
  · intro m h
    exact renderLoop_fixed m h m.length
  · intro m m2 h
    exact renderLoop_fixed m2 (renderLoop_ok_fixed m.length m m2 h) m2.length

/-- Witness for claim C5: a concrete fully-substituted mapping renders to
itself, and re-rendering a concrete engine output returns it unchanged. -/
theorem render_values_idempotent_witness :
    renderValuesInTemplateMap [("net.host", "x")] = .ok [("net.host", "x")] :=
  render_values_idempotent.1 [("net.host", "x")] (by decide)

/-! ## Resolver (`Config.get_active_values_and_metadata`) -/

/-- The override records built from the parsed store items, as
`get_overrides` builds `Override(name, value)` from each pair. -/
def overridesOf (storeItems : List (String × String)) : List Override :=
  storeItems.map fun p => Override.mk p.1 p.2

/-- The merge of one default with the override map: the override value wins
exactly when an override with that name exists and its value differs from
the default's value.  Embeds the loop body of
`get_active_values_and_metadata`. -/
def mergeValAt (om : List (String × Override)) (k : String) (d : Default) : String :=
  match lookupA om k with
  | some o => if o.value ≠ d.value then o.value else d.value
  | none => d.value

/-- The `different_defaults` entry for one default: the default record
exactly when a differing override exists. -/
def diffDefaultAt (om : List (String × Override)) (k : String) (d : Default) : Option Default :=
  match lookupA om k with
  | some o => if o.value ≠ d.value then some d else none
  | none => none

/-- The pre-render `active_values` dict built by the merge loop. -/
def mergeActive (dm : List (String × Default)) (om : List (String × Override)) :
    List (String × String) :=
  dm.map fun p => (p.1, mergeValAt om p.1 p.2)

/-- The `different_defaults` dict built by the merge loop. -/
def differingDefaults0 (dm : List (String × Default)) (om : List (String × Override)) :
    List (String × Default) :=
  dm.filterMap fun p => (diffDefaultAt om p.1 p.2).map fun b => (p.1, b)

/-- The `different_suggestions` entry for one post-render active pair:
the suggestion exactly when one with that name exists and differs from the
resolved value. -/
def diffSuggAt (sm : List (String × Suggestion)) (k : String) (v : String) : Option Suggestion :=
  match lookupA sm k with
  | some s => if s.value ≠ v then some s else none
  | none => none

/-- The `different_suggestions` dict built over the post-render mapping. -/
def differingSuggestions0 (active : List (String × String))
    (sm : List (String × Suggestion)) : List (String × Suggestion) :=
  active.filterMap fun p => (diffSuggAt sm p.1 p.2).map fun b => (p.1, b)

/-- The errors `get_active_values_and_metadata` can propagate: a validation
failure of one of the three collections, or a template cycle. -/
inductive ConfigError where
  | defaultsError (e : ValidationError Default)
  | overridesError (e : ValidationError Override)
  | suggestionsError (e : ValidationError Suggestion)
  | templateCycle
  deriving DecidableEq

/-- Embeds `Config.get_active_values_and_metadata`, with the store read
replaced by the parsed store items (the store itself is modelled in the
override-store section): validate the three collections, merge defaults
with overrides, render templates over the merged mapping, then collect the
suggestion diffs against the rendered values. -/
def getActiveValuesAndMetadata (defaults : List Default) (suggestions : List Suggestion)
    (storeItems : List (String × String)) :
    Except ConfigError
      (List (String × String) × List (String × Suggestion) × List (String × Default)) :=
  match validateAndMapByName Default.name defaults with
  | .error e => .error (.defaultsError e)
  | .ok dm =>
    match validateAndMapByName Override.name (overridesOf storeItems) with
    | .error e => .error (.overridesError e)
    | .ok om =>
      match validateAndMapByName Suggestion.name suggestions with
      | .error e => .error (.suggestionsError e)
      | .ok sm =>
        match renderValuesInTemplateMap (mergeActive dm om) with
        | .error _ => .error .templateCycle
        | .ok active => .ok (active, differingSuggestions0 active sm, differingDefaults0 dm om)

/-- The merged (pre-render) mapping expressed on the raw inputs; equal to the
intermediate dict of the resolver whenever validation succeeds. -/
def mergedOf (defaults : List Default) (storeItems : List (String × String)) :
    List (String × String) :=
  mergeActive (pairsOf Default.name defaults) (pairsOf Override.name (overridesOf storeItems))

theorem pairsOf_overridesOf (storeItems : List (String × String)) :
    pairsOf Override.name (overridesOf storeItems) =
      storeItems.map fun p => (p.1, Override.mk p.1 p.2) := by
  simp [pairsOf, overridesOf, Function.comp]

theorem lookupA_overrides (storeItems : List (String × String)) (k : String) :
    lookupA (pairsOf Override.name (overridesOf storeItems)) k =
      (lookupA storeItems k).map fun v => Override.mk k v := by
  rw [pairsOf_overridesOf]
  exact lookupA_map_shape (fun a b => Override.mk a b) storeItems k

/-- Lookup in the canonical by-name pairing is `find?` by name on the raw
record list. -/
theorem lookupA_pairsOf_find {α : Type} (nameOf : α → String) (vars : List α) (k : String) :
    lookupA (pairsOf nameOf vars) k = vars.find? fun v => nameOf v == k := by
  induction vars with
  | nil => rfl
  | cons v rest ih =>
    simp only [pairsOf, List.map_cons]
    by_cases hs : nameOf v = k
    · rw [lookupA_cons, if_pos hs, List.find?_cons_of_pos _ (by simp [hs])]
    · rw [lookupA_cons, if_neg hs, List.find?_cons_of_neg _ (by simp [hs])]
      exact ih

/-- Inversion of a successful resolver run: recover the validated maps, the
render equation and the two diff dicts. -/
theorem resolve_inv (defaults : List Default) (suggestions : List Suggestion)
    (storeItems : List (String × String)) (active : List (String × String))
    (ds : List (String × Suggestion)) (dd : List (String × Default))
    (h : getActiveValuesAndMetadata defaults suggestions storeItems = .ok (active, ds, dd)) :
    ∃ dm om sm,
      validateAndMapByName Default.name defaults = .ok dm ∧
      validateAndMapByName Override.name (overridesOf storeItems) = .ok om ∧
      validateAndMapByName Suggestion.name suggestions = .ok sm ∧
      renderValuesInTemplateMap (mergeActive dm om) = .ok active ∧
      ds = differingSuggestions0 active sm ∧
      dd = differingDefaults0 dm om := by
  unfold getActiveValuesAndMetadata at h
  cases hdm : validateAndMapByName Default.name defaults with
  | error e => rw [hdm] at h; simp at h
  | ok dm =>
    rw [hdm] at h
    dsimp only at h
    cases hom : validateAndMapByName Override.name (overridesOf storeItems) with
    | error e => rw [hom] at h; simp at h
    | ok om =>
      rw [hom] at h
      dsimp only at h
      cases hsm : validateAndMapByName Suggestion.name suggestions with
      | error e => rw [hsm] at h; simp at h
      | ok sm =>
        rw [hsm] at h
        dsimp only at h
        cases hr : renderValuesInTemplateMap (mergeActive dm om) with
        | error e => rw [hr] at h; simp at h
        | ok a2 =>
          rw [hr] at h
          dsimp only at h
          simp only [Except.ok.injEq, Prod.mk.injEq] at h
          obtain ⟨h1, h2, h3⟩ := h
          subst h1
          exact ⟨dm, om, sm, rfl, rfl, rfl, hr, h2.symm, h3.symm⟩

/-- Claim C1: for well-formed defaults and overrides, the resolver's active
mapping has exactly one entry per default name and no others; before
template rendering, the merged value for a default name is the override's
value when a differing override exists (and then `different_defaults` holds
that default record) and the default's value otherwise (and then the name
is absent from `different_defaults`); names present only as overrides are
excluded. -/
theorem resolve_active_spec (defaults : List Default) (suggestions : List Suggestion)
    (storeItems : List (String × String)) (active : List (String × String))
    (ds : List (String × Suggestion)) (dd : List (String × Default))
    (h : getActiveValuesAndMetadata defaults suggestions storeItems = .ok (active, ds, dd)) :
    active.map Prod.fst = defaults.map Default.name ∧
    (active.map Prod.fst).Nodup ∧
    renderValuesInTemplateMap (mergedOf defaults storeItems) = .ok active ∧
    (∀ d ∈ defaults, ∀ w, lookupA storeItems d.name = some w → w ≠ d.value →
      lookupA (mergedOf defaults storeItems) d.name = some w ∧
      lookupA dd d.name = some d) ∧
    (∀ d ∈ defaults, ∀ w, lookupA storeItems d.name = some w → w = d.value →
      lookupA (mergedOf defaults storeItems) d.name = some d.value ∧
      lookupA dd d.name = none) ∧
    (∀ d ∈ defaults, lookupA storeItems d.name = none →
      lookupA (mergedOf defaults storeItems) d.name = some d.value ∧
      lookupA dd d.name = none) ∧
    (∀ n, n ∉ defaults.map Default.name → lookupA active n = none) := by
  rcases resolve_inv defaults suggestions storeItems active ds dd h with
    ⟨dm, om, sm, hdm, hom, hsm, hr, hds, hdd⟩
  rcases validate_ok_eq Default.name defaults dm hdm with ⟨hdmeq, hdmnd⟩
  rcases validate_ok_eq Override.name (overridesOf storeItems) om hom with ⟨homeq, _⟩
  subst hdmeq
  subst homeq
  have hdm_fst : (pairsOf Default.name defaults).map Prod.fst = defaults.map Default.name := by
    simp [pairsOf, Function.comp]
  have hmerged : mergeActive (pairsOf Default.name defaults)
      (pairsOf Override.name (overridesOf storeItems)) = mergedOf defaults storeItems := rfl
  have hafst : active.map Prod.fst = defaults.map Default.name := by
    rw [render_ok_fst _ _ hr]
    simp [mergeActive, pairsOf, Function.comp]
  have hnd2 : (defaults.map Default.name).Nodup := by rwa [hdm_fst] at hdmnd
  have hlk : ∀ d ∈ defaults, lookupA (pairsOf Default.name defaults) d.name = some d := by
    intro d hd
    apply lookupA_of_mem_nodup
    · rwa [hdm_fst]
    · simp only [pairsOf, List.mem_map]
      exact ⟨d, hd, rfl⟩
  have hmg : ∀ d ∈ defaults,
      lookupA (mergedOf defaults storeItems) d.name =
        some (mergeValAt (pairsOf Override.name (overridesOf storeItems)) d.name d) := by
    intro d hd
    rw [mergedOf, mergeActive,
      lookupA_map_shape (fun a b => mergeValAt (pairsOf Override.name (overridesOf storeItems)) a b),
      hlk d hd, Option.map_some']
  have hddl : ∀ d ∈ defaults,
      lookupA dd d.name =
        diffDefaultAt (pairsOf Override.name (overridesOf storeItems)) d.name d := by
    intro d hd
    rw [hdd, differingDefaults0,
      lookupA_filterMap_shape (diffDefaultAt (pairsOf Override.name (overridesOf storeItems)))
        (pairsOf Default.name defaults) d.name (by rwa [hdm_fst]),
      hlk d hd, Option.some_bind]
  refine ⟨hafst, by rw [hafst]; exact hnd2, by rwa [hmerged] at hr, ?_, ?_, ?_, ?_⟩
  · intro d hd w hw hne
    rw [hmg d hd, hddl d hd, mergeValAt, diffDefaultAt, lookupA_overrides, hw]
    simp only [Option.map_some']
    rw [if_pos hne, if_pos hne]
    exact ⟨rfl, rfl⟩
  · intro d hd w hw heq
    subst heq
    rw [hmg d hd, hddl d hd, mergeValAt, diffDefaultAt, lookupA_overrides, hw]
    simp only [Option.map_some']
    rw [if_neg (by simp), if_neg (by simp)]
    exact ⟨by trivial, by trivial⟩
  · intro d hd hw
    rw [hmg d hd, hddl d hd, mergeValAt, diffDefaultAt, lookupA_overrides, hw]
    simp only [Option.map_none']
    exact ⟨by trivial, by trivial⟩
  · intro n hn
    rw [lookupA_eq_none, hafst]
    exact hn

/-- Witness for claim C1: with one default and a differing stored override,
the merged value is the override's and the default lands in
`different_defaults`. -/
theorem resolve_active_spec_witness :
    lookupA (mergedOf [Default.mk "host.name" "x"] [("host.name", "y")]) "host.name" =
      some "y" ∧
    lookupA [("host.name", Default.mk "host.name" "x")] "host.name" =
      some (Default.mk "host.name" "x") := by
  have h := resolve_active_spec [Default.mk "host.name" "x"] [] [("host.name", "y")]
    [("host.name", "y")] [] [("host.name", Default.mk "host.name" "x")] (by rfl)
  exact h.2.2.2.1 (Default.mk "host.name" "x") (by simp) "y" rfl (by decide)

/-- Claim C6: a name is in `different_suggestions` exactly when it is in the
post-render active mapping with a matching suggestion whose value differs
from the resolved value, and the suggestions never influence the active
mapping or the default diffs. -/
theorem resolve_suggestions_spec (defaults : List Default) (suggestions : List Suggestion)
    (storeItems : List (String × String)) (active : List (String × String))
    (ds : List (String × Suggestion)) (dd : List (String × Default))
    (h : getActiveValuesAndMetadata defaults suggestions storeItems = .ok (active, ds, dd)) :
    (∀ n v, lookupA active n = some v →
      lookupA ds n = (match suggestions.find? (fun s => s.name == n) with
        | some s => if s.value ≠ v then some s else none
        | none => none)) ∧
    (∀ n, lookupA active n = none → lookupA ds n = none) ∧
    (∀ (suggestions2 : List Suggestion) (sm2 : List (String × Suggestion)),
      validateAndMapByName Suggestion.name suggestions2 = .ok sm2 →
      getActiveValuesAndMetadata defaults suggestions2 storeItems =
        .ok (active, differingSuggestions0 active sm2, dd)) := by
  rcases resolve_inv defaults suggestions storeItems active ds dd h with
    ⟨dm, om, sm, hdm, hom, hsm, hr, hds, hdd⟩
  rcases validate_ok_eq Default.name defaults dm hdm with ⟨hdmeq, hdmnd⟩
  rcases validate_ok_eq Suggestion.name suggestions sm hsm with ⟨hsmeq, _⟩
  have hand : (active.map Prod.fst).Nodup := by
    rw [render_ok_fst _ _ hr]
    rw [mergeActive]
    have : ((dm.map fun p => (p.1, mergeValAt om p.1 p.2)).map Prod.fst) = dm.map Prod.fst := by
      simp
    rw [this]
    exact hdmnd
  have hdsl : ∀ n, lookupA ds n = (lookupA active n).bind (diffSuggAt sm n) := by
    intro n
    rw [hds, differingSuggestions0]
    exact lookupA_filterMap_shape (diffSuggAt sm) active n hand
  have hsml : ∀ n, lookupA sm n = suggestions.find? fun s => s.name == n := by
    intro n
    rw [hsmeq]
    exact lookupA_pairsOf_find Suggestion.name suggestions n
  refine ⟨?_, ?_, ?_⟩
  · intro n v hv
    rw [hdsl n, hv, Option.some_bind, diffSuggAt, hsml n]
  · intro n hv
    rw [hdsl n, hv, Option.none_bind]
  · intro suggestions2 sm2 hsm2
    unfold getActiveValuesAndMetadata
    rw [hdm]
    dsimp only
    rw [hom]
    dsimp only
    rw [hsm2]
    dsimp only
    rw [hr]
    dsimp only
    rw [hdd]

/-- Witness for claim C6: a concrete resolver run where a suggestion with a
differing value is recorded against the rendered active value. -/
theorem resolve_suggestions_spec_witness :
    lookupA [("host.name", Suggestion.mk "host.name" "z" "why")] "host.name" =
      some (Suggestion.mk "host.name" "z" "why") := by
  have h := resolve_suggestions_spec [Default.mk "host.name" "x"]
    [Suggestion.mk "host.name" "z" "why"] []
    [("host.name", "x")] [("host.name", Suggestion.mk "host.name" "z" "why")]
    [] (by rfl)
  have h1 := h.1 "host.name" "x" rfl
  simpa using h1

/-! ## Executable lexicographic string comparison

Python compares and sorts strings lexicographically by code point; this
Boolean comparison mirrors that and is proved equal to the mathematical
string order, so concrete runs reduce inside the kernel. -/

/-- Lexicographic less-or-equal on character lists by code point. -/
def charListLeB : List Char → List Char → Bool
  | [], _ => true
  | _ :: _, [] => false
  | c1 :: r1, c2 :: r2 => if c1 = c2 then charListLeB r1 r2 else decide (c1 < c2)

/-- Lexicographic less-or-equal on strings by code point. -/
def strLeB (a b : String) : Bool := charListLeB a.data b.data

theorem charListLeB_iff : ∀ l1 l2 : List Char,
    charListLeB l1 l2 = true ↔ ¬ List.Lex (· < ·) l2 l1 := by
  intro l1
  induction l1 with
  | nil =>
    intro l2
    simp only [charListLeB]
    constructor
    · intro _ hlex
      cases hlex
    · intro _
      trivial
  | cons c1 r1 ih =>
    intro l2
    cases l2 with
    | nil =>
      simp only [charListLeB]
      constructor
      · intro h
        exact absurd h (by simp)
      · intro h
        exact absurd List.Lex.nil h
    | cons c2 r2 =>
      rw [charListLeB]
      by_cases hc : c1 = c2
      · subst hc
        rw [if_pos rfl, ih r2]
        constructor
        · intro h hlex
          cases hlex with
          | cons h2 => exact h h2
          | rel h2 => exact absurd h2 (lt_irrefl c1)
        · intro h hlex
          exact h (List.Lex.cons hlex)
      · rw [if_neg hc]
        simp only [decide_eq_true_eq]
        constructor
        · intro h hlex
          cases hlex with
          | cons h2 => exact hc rfl
          | rel h2 => exact lt_asymm h h2
        · intro h
          rcases lt_trichotomy c1 c2 with h2 | h2 | h2
          · exact h2
          · exact absurd h2 hc
          · exact absurd (List.Lex.rel h2) h

theorem strLeB_iff (a b : String) : strLeB a b = true ↔ a ≤ b := by
  rw [strLeB, String.le_iff_toList_le, ← not_lt]
  exact charListLeB_iff a.data b.data

instance (priority := 1100) strLeDecidable : DecidableRel fun a b : String => a ≤ b :=
  fun a b => decidable_of_iff (strLeB a b = true) (strLeB_iff a b)

/-! ## Override store (`get_overrides` / `set_override` / `delete_override`)

The `props` and `protected_file_path` modules are part of this repository
but are not under `src/`; the store below is modelled from the
specification (sections 4.3 and 5): an optional property file (`none` is an
absent file, created empty on first use), an exclusive lock scoped around
every operation, and atomic replace via write-to-temporary-then-rename.
An injected fault stands for an I/O failure of the write. -/

/-- The persisted store file: `none` when the file does not exist yet,
otherwise the parsed `name=value` pairs. -/
def StoreFile : Type := Option (List (String × String))

/-- The parsed items of a store file, treating an absent file as empty
(create-on-first-use). -/
def itemsOfFile (f : StoreFile) : List (String × String) := f.getD []

/-- Keep the persisted pairs sorted by name, as the spec fixes for
deterministic diffs. -/
def sortPairs (l : List (String × String)) : List (String × String) :=
  l.insertionSort fun p q => p.1 ≤ q.1

/-- Modelled from the spec: `props.set_key` rewrites the stored value for a
key, inserting if absent, and keeps the file sorted by name. -/
def setKeyItems (items : List (String × String)) (k v : String) : List (String × String) :=
  sortPairs ((items.filter fun p => !(p.1 == k)) ++ [(k, v)])

/-- Modelled from the spec: `props.delete_key` removes the key if present;
no error if absent. -/
def deleteKeyItems (items : List (String × String)) (k : String) : List (String × String) :=
  items.filter fun p => !(p.1 == k)

/-- Observable events of one store operation, in order: the scoped lock
acquisition and release of `ProtectedFilePath`, the read of the file, the
write of the temporary file and its rename over the original. -/
inductive StoreEv where
  | acquireLock
  | readStore
  | writeTemp
  | renameTemp
  | releaseLock
  deriving DecidableEq

/-- The distinct I/O error kind store failures propagate as. -/
inductive StoreError where
  | ioFailure
  deriving DecidableEq

/-- Modelled from the spec: `Config.get_overrides` acquires the lock, reads
the items (creating the file empty when absent), releases the lock, and
wraps each pair as an `Override`.  With `fault` the read fails and the file
is untouched. -/
def getOverridesRun (fault : Bool) (file : StoreFile) :
    List StoreEv × StoreFile × Except StoreError (List Override) :=
  if fault then
    ([.acquireLock, .readStore, .releaseLock], file, .error .ioFailure)
  else
    ([.acquireLock, .readStore, .releaseLock], some (itemsOfFile file),
      .ok (overridesOf (itemsOfFile file)))

/-- Modelled from the spec: `Config.set_override` under the scoped lock
writes the updated items to a temporary location and renames it over the
original.  With `fault` the temporary write fails after the read: the lock
is still released and the original file is unchanged. -/
def setOverrideRun (fault : Bool) (file : StoreFile) (k v : String) :
    List StoreEv × StoreFile × Except StoreError Unit :=
  if fault then
    ([.acquireLock, .readStore, .writeTemp, .releaseLock], file, .error .ioFailure)
  else
    ([.acquireLock, .readStore, .writeTemp, .renameTemp, .releaseLock],
      some (setKeyItems (itemsOfFile file) k v), .ok ())

/-- Modelled from the spec: `Config.delete_override` under the scoped lock
removes the key if present (no error if absent) and renames the rewritten
file into place; with `fault` the write fails, the lock is released and the
file is unchanged. -/
def deleteOverrideRun (fault : Bool) (file : StoreFile) (k : String) :
    List StoreEv × StoreFile × Except StoreError Unit :=
  if fault then
    ([.acquireLock, .readStore, .writeTemp, .releaseLock], file, .error .ioFailure)
  else
    ([.acquireLock, .readStore, .writeTemp, .renameTemp, .releaseLock],
      some (deleteKeyItems (itemsOfFile file) k), .ok ())

/-- Claim C2: every override-store operation's event trace starts with the
lock acquisition and ends with the lock release, on the success path and on
the failure path alike; a faulted operation reports the distinct I/O error
and leaves the persisted contents exactly as they were (the rename never
happened), while a successful set/delete installs the rewritten file. -/
theorem store_ops_lock_and_atomicity (fault : Bool) (file : StoreFile) (k v : String) :
    ((getOverridesRun fault file).1.head? = some .acquireLock ∧
      (getOverridesRun fault file).1.getLast? = some .releaseLock ∧
      (setOverrideRun fault file k v).1.head? = some .acquireLock ∧
      (setOverrideRun fault file k v).1.getLast? = some .releaseLock ∧
      (deleteOverrideRun fault file k).1.head? = some .acquireLock ∧
      (deleteOverrideRun fault file k).1.getLast? = some .releaseLock) ∧
    (getOverridesRun fault file).2.1 =
      (if fault then file else some (itemsOfFile file)) ∧
    (setOverrideRun fault file k v).2.1 =
      (if fault then file else some (setKeyItems (itemsOfFile file) k v)) ∧
    (setOverrideRun fault file k v).2.2 =
      (if fault then .error .ioFailure else .ok ()) ∧
    (deleteOverrideRun fault file k).2.1 =
      (if fault then file else some (deleteKeyItems (itemsOfFile file) k)) ∧
    (deleteOverrideRun fault file k).2.2 =
      (if fault then .error .ioFailure else .ok ()) := by
  cases fault <;>
    simp [getOverridesRun, setOverrideRun, deleteOverrideRun, List.getLast?]

theorem lookupA_deleteKeyItems (items : List (String × String)) (k : String) :
    lookupA (deleteKeyItems items k) k = none := by
  rw [lookupA_eq_none]
  intro hmem
  rcases List.mem_map.mp hmem with ⟨p, hp, hfst⟩
  rw [deleteKeyItems] at hp
  rcases List.mem_filter.mp hp with ⟨_, hcond⟩
  simp only [Bool.not_eq_true', beq_eq_false_iff_ne, ne_eq] at hcond
  exact hcond hfst

theorem deleteKeyItems_absent (items : List (String × String)) (k : String)
    (h : k ∉ items.map Prod.fst) : deleteKeyItems items k = items := by
  rw [deleteKeyItems, List.filter_eq_self]
  intro p hp
  simp only [Bool.not_eq_true', beq_eq_false_iff_ne, ne_eq]
  intro he
  exact h (he ▸ List.mem_map_of_mem Prod.fst hp)

/-- Claim C8: deleting a name's override and then resolving yields the
default's value for that name: the store no longer holds the key, the
merged value is the default's value, the name is absent from
`different_defaults`, and when the default value contains no template
reference the post-render active value is literally the default's value;
deleting a key with no stored override is not an error and leaves the
items unchanged. -/
theorem delete_override_reverts (defaults : List Default) (suggestions : List Suggestion)
    (storeItems : List (String × String)) (name : String) :
    lookupA (deleteKeyItems storeItems name) name = none ∧
    (name ∉ storeItems.map Prod.fst → deleteKeyItems storeItems name = storeItems) ∧
    (∀ file : StoreFile, (deleteOverrideRun false file name).2.2 = .ok ()) ∧
    (∀ d ∈ defaults, d.name = name →
      ∀ (active : List (String × String)) (ds : List (String × Suggestion))
        (dd : List (String × Default)),
        getActiveValuesAndMetadata defaults suggestions (deleteKeyItems storeItems name) =
          .ok (active, ds, dd) →
        lookupA (mergedOf defaults (deleteKeyItems storeItems name)) name = some d.value ∧
        lookupA dd name = none ∧
        (noBrace d.value = true → lookupA active name = some d.value)) := by
  refine ⟨lookupA_deleteKeyItems storeItems name, deleteKeyItems_absent storeItems name,
    fun file => rfl, ?_⟩
  intro d hd hname active ds dd h
  subst hname
  rcases resolve_inv defaults suggestions (deleteKeyItems storeItems d.name) active ds dd h with
    ⟨dm, om, sm, hdm, hom, hsm, hr, hds, hdd⟩
  rcases validate_ok_eq Default.name defaults dm hdm with ⟨hdmeq, hdmnd⟩
  rcases validate_ok_eq Override.name (overridesOf (deleteKeyItems storeItems d.name)) om hom with
    ⟨homeq, _⟩
  subst hdmeq
  subst homeq
  have hdm_fst : (pairsOf Default.name defaults).map Prod.fst = defaults.map Default.name := by
    simp [pairsOf, Function.comp]
  have hlkd : lookupA (pairsOf Default.name defaults) d.name = some d := by
    apply lookupA_of_mem_nodup hdmnd
    simp only [pairsOf, List.mem_map]
    exact ⟨d, hd, rfl⟩
  have hono : lookupA (pairsOf Override.name (overridesOf (deleteKeyItems storeItems d.name)))
      d.name = none := by
    rw [lookupA_overrides, lookupA_deleteKeyItems, Option.map_none']
  have hmv : lookupA (mergedOf defaults (deleteKeyItems storeItems d.name)) d.name =
      some d.value := by
    rw [mergedOf, mergeActive,
      lookupA_map_shape
        (fun a b => mergeValAt (pairsOf Override.name (overridesOf (deleteKeyItems storeItems d.name))) a b),
      hlkd, Option.map_some', mergeValAt, hono]
  refine ⟨hmv, ?_, ?_⟩
  · rw [hdd, differingDefaults0,
      lookupA_filterMap_shape
        (diffDefaultAt (pairsOf Override.name (overridesOf (deleteKeyItems storeItems d.name))))
        (pairsOf Default.name defaults) d.name hdmnd,
      hlkd, Option.some_bind, diffDefaultAt, hono]
  · intro hnb
    have hr2 : renderValuesInTemplateMap (mergedOf defaults (deleteKeyItems storeItems d.name)) =
        .ok active := hr
    rw [renderValuesInTemplateMap] at hr2
    exact renderLoop_noBrace_lookup _ _ active d.name d.value hr2 hmv hnb

/-- Witness for claim C8: deleting the only override for a default name and
resolving returns the default's (template-free) value both before and after
rendering, with no default diff recorded. -/
theorem delete_override_reverts_witness :
    lookupA (mergedOf [Default.mk "host.name" "x"]
      (deleteKeyItems [("host.name", "y")] "host.name")) "host.name" = some "x" ∧
    lookupA ([] : List (String × Default)) "host.name" = none ∧
    lookupA [("host.name", "x")] "host.name" = some "x" := by
  have h := (delete_override_reverts [Default.mk "host.name" "x"] []
    [("host.name", "y")] "host.name").2.2.2
    (Default.mk "host.name" "x") (by simp) rfl [("host.name", "x")] [] [] (by rfl)
  exact ⟨h.1, h.2.1, h.2.2 (by decide)⟩

/-! ## Typo suggester (`difflib.get_close_matches`)

`exit_on_unknown_key` calls the standard library's
`difflib.get_close_matches(key, default_names)` with its default arguments
`n=3, cutoff=0.6`.  The definitions below embed the standard library's
`SequenceMatcher` algorithm (with `isjunk=None`, so the junk set is empty)
over exact rationals; the float cutoff `0.6` is embedded as the exact
rational three fifths. -/

/-- Ascending positions of a character in a list, as the per-character index
lists of the matcher's `b2j` table. -/
def charPositionsAux (c : Char) : List Char → ℕ → List ℕ
  | [], _ => []
  | x :: rest, i =>
    if x = c then i :: charPositionsAux c rest (i + 1) else charPositionsAux c rest (i + 1)

def charPositions (b : List Char) (c : Char) : List ℕ := charPositionsAux c b 0

/-- The automatic-junk heuristic: for sequences of at least 200 elements,
characters occurring in more than one percent of them (plus one) are
dropped from the index table. -/
def popularChars (b : List Char) : List Char :=
  if b.length ≥ 200 then b.dedup.filter fun c => b.count c > b.length / 100 + 1 else []

/-- The matcher's `b2j` index of the second sequence, with popular
characters purged. -/
def b2j (b : List Char) (c : Char) : List ℕ :=
  if c ∈ popularChars b then [] else charPositions b c

/-- Lookup in the `j2len` row map of run lengths, defaulting to zero. -/
def lookupJ (l : List (ℕ × ℕ)) (j : ℕ) : ℕ :=
  match l.find? fun p => p.1 == j with
  | some p => p.2
  | none => 0

/-- One row of the longest-match search: extend the runs ending at the
previous row and track the best block seen so far. -/
def flmRowStep (j2len : List (ℕ × ℕ)) (i : ℕ) (js : List ℕ) (best : ℕ × ℕ × ℕ) :
    List (ℕ × ℕ) × (ℕ × ℕ × ℕ) :=
  js.foldl
    (fun acc j =>
      let k := (if j = 0 then 0 else lookupJ j2len (j - 1)) + 1
      let best2 := if k > acc.2.2.2 then (i + 1 - k, j + 1 - k, k) else acc.2
      (acc.1 ++ [(j, k)], best2))
    ([], best)

/-- The dynamic-programming core of `find_longest_match` over the window
`[alo, ahi) x [blo, bhi)`. -/
def flmMain (a b : List Char) (alo ahi blo bhi : ℕ) : ℕ × ℕ × ℕ :=
  (((List.range (ahi - alo)).map fun t => alo + t).foldl
    (fun acc i =>
      let js := (b2j b (a.getD i ' ')).filter fun j => decide (blo ≤ j) && decide (j < bhi)
      flmRowStep acc.1 i js acc.2)
    ([], (alo, blo, 0))).2

/-- The leftward extension loop of `find_longest_match` (with an empty junk
set the junk guard is vacuous). -/
def extendLeft (a b : List Char) (alo blo : ℕ) : ℕ → ℕ × ℕ × ℕ → ℕ × ℕ × ℕ
  | 0, best => best
  | fuel + 1, (besti, bestj, bestsize) =>
    if besti > alo ∧ bestj > blo ∧ a.getD (besti - 1) ' ' = b.getD (bestj - 1) ' ' then
      extendLeft a b alo blo fuel (besti - 1, bestj - 1, bestsize + 1)
    else (besti, bestj, bestsize)

/-- The rightward extension loop of `find_longest_match`. -/
def extendRight (a b : List Char) (ahi bhi : ℕ) : ℕ → ℕ × ℕ × ℕ → ℕ × ℕ × ℕ
  | 0, best => best
  | fuel + 1, (besti, bestj, bestsize) =>
    if besti + bestsize < ahi ∧ bestj + bestsize < bhi ∧
        a.getD (besti + bestsize) ' ' = b.getD (bestj + bestsize) ' ' then
      extendRight a b ahi bhi fuel (besti, bestj, bestsize + 1)
    else (besti, bestj, bestsize)

/-- Embeds `SequenceMatcher.find_longest_match`: the main search followed by
the two plain extension loops; with `isjunk=None` the junk set is empty, so
the two junk-extension loops of the source can never fire and are omitted. -/
def findLongestMatch (a b : List Char) (alo ahi blo bhi : ℕ) : ℕ × ℕ × ℕ :=
  let best := flmMain a b alo ahi blo bhi
  let best2 := extendLeft a b alo blo best.1 best
  extendRight a b ahi bhi (ahi + bhi) best2

/-- Embeds the recursive block collection of `get_matching_blocks` (the
final sort-and-merge step of the source only coalesces adjacent blocks and
cannot change the total matched size, which is all the ratio reads). -/
def matchingBlocksAux (a b : List Char) : ℕ → ℕ → ℕ → ℕ → ℕ → List (ℕ × ℕ × ℕ)
  | 0, _, _, _, _ => []
  | fuel + 1, alo, ahi, blo, bhi =>
    let ijk := findLongestMatch a b alo ahi blo bhi
    if ijk.2.2 > 0 then
      matchingBlocksAux a b fuel alo ijk.1 blo ijk.2.1 ++ [ijk] ++
        matchingBlocksAux a b fuel (ijk.1 + ijk.2.2) ahi (ijk.2.1 + ijk.2.2) bhi
    else []

/-- Total number of matched elements between the two sequences. -/
def totalMatched (a b : List Char) : ℕ :=
  ((matchingBlocksAux a b (a.length + b.length + 1) 0 a.length 0 b.length).map
    fun t => t.2.2).sum

/-- Embeds `difflib._calculate_ratio` on a matched count and a total
length. -/
def calcRatio (m t : ℕ) : ℚ :=
  if t > 0 then (2 * m : ℚ) / (t : ℚ) else 1

/-- The total sequence length a ratio is taken over. -/
def simT (a b : String) : ℕ := a.length + b.length

/-- The matched count of `SequenceMatcher.quick_ratio()`: the multiset
intersection of the two character populations. -/
def quickM (a b : String) : ℕ :=
  a.data.dedup.foldl (fun acc c => acc + min (a.data.count c) (b.data.count c)) 0

/-- The matched count of `SequenceMatcher.real_quick_ratio()`. -/
def realQuickM (a b : String) : ℕ := min a.length b.length

/-- Embeds `SequenceMatcher.ratio()` for `a` against `b`. -/
def ratioSM (a b : String) : ℚ := calcRatio (totalMatched a.data b.data) (simT a b)

/-- The similarity cutoff of `get_close_matches`: the source's float `0.6`
as the exact rational three fifths. -/
def simCutoff : ℚ := 3 / 5

/-- Does the ratio `2*m/t` (taken as `1` when `t = 0`) clear the cutoff?
Executable Nat cross-multiplication form of `calcRatio m t >= 0.6`. -/
def clearsCutoffB (m t : ℕ) : Bool := decide (t = 0) || decide (3 * t ≤ 10 * m)

/-- The exact rational value of a matched-count/total pair. -/
def ratQ (p : ℕ × ℕ) : ℚ := calcRatio p.1 p.2

/-- Executable Nat cross-multiplication form of `ratQ q ≤ ratQ p`. -/
def ratGeB (p q : ℕ × ℕ) : Bool :=
  if p.2 = 0 then (if q.2 = 0 then true else decide (2 * q.1 ≤ q.2))
  else if q.2 = 0 then decide (p.2 ≤ 2 * p.1)
  else decide (2 * q.1 * p.2 ≤ 2 * p.1 * q.2)

theorem calcRatio_zero (m : ℕ) : calcRatio m 0 = 1 := by
  rw [calcRatio, if_neg]
  omega

theorem calcRatio_of_pos (m t : ℕ) (h : 0 < t) : calcRatio m t = (2 * m : ℚ) / (t : ℚ) := by
  rw [calcRatio, if_pos h]

theorem clearsCutoffB_iff (m t : ℕ) :
    clearsCutoffB m t = true ↔ simCutoff ≤ calcRatio m t := by
  rw [clearsCutoffB, simCutoff]
  by_cases ht : t = 0
  · subst ht
    rw [calcRatio_zero]
    simp
    norm_num
  · have htpos : 0 < t := Nat.pos_of_ne_zero ht
    have htq : (0 : ℚ) < (t : ℚ) := by exact_mod_cast htpos
    rw [calcRatio_of_pos m t htpos, div_le_div_iff₀ (by norm_num) htq]
    simp only [Bool.or_eq_true, decide_eq_true_eq, ht, false_or]
    constructor
    · intro h
      calc (3 : ℚ) * t ≤ (10 : ℚ) * m := by exact_mod_cast h
        _ = 2 * m * 5 := by ring
    · intro h
      have h2 : (3 : ℚ) * t ≤ 10 * m := by linarith
      exact_mod_cast h2

theorem ratGeB_iff (p q : ℕ × ℕ) : ratGeB p q = true ↔ ratQ q ≤ ratQ p := by
  rcases p with ⟨m1, t1⟩
  rcases q with ⟨m2, t2⟩
  rw [ratGeB, ratQ, ratQ]
  by_cases h1 : t1 = 0
  · subst h1
    rw [if_pos rfl]
    by_cases h2 : t2 = 0
    · subst h2
      rw [if_pos rfl, calcRatio_zero, calcRatio_zero]
      simp
    · have hpos : 0 < t2 := Nat.pos_of_ne_zero h2
      have hq : (0 : ℚ) < (t2 : ℚ) := by exact_mod_cast hpos
      rw [if_neg h2, calcRatio_zero, calcRatio_of_pos m2 t2 hpos, div_le_one hq]
      simp only [decide_eq_true_eq]
      exact ⟨fun h => by exact_mod_cast h, fun h => by exact_mod_cast h⟩
  · have hpos1 : 0 < t1 := Nat.pos_of_ne_zero h1
    have hq1 : (0 : ℚ) < (t1 : ℚ) := by exact_mod_cast hpos1
    rw [if_neg h1]
    by_cases h2 : t2 = 0
    · subst h2
      rw [if_pos rfl, calcRatio_zero, calcRatio_of_pos m1 t1 hpos1, one_le_div hq1]
      simp only [decide_eq_true_eq]
      exact ⟨fun h => by exact_mod_cast h, fun h => by exact_mod_cast h⟩
    · have hpos2 : 0 < t2 := Nat.pos_of_ne_zero h2
      have hq2 : (0 : ℚ) < (t2 : ℚ) := by exact_mod_cast hpos2
      rw [if_neg h2, calcRatio_of_pos m2 t2 hpos2, calcRatio_of_pos m1 t1 hpos1,
        div_le_div_iff₀ hq2 hq1]
      simp only [decide_eq_true_eq]
      exact ⟨fun h => by exact_mod_cast h, fun h => by exact_mod_cast h⟩

/-- The scored candidates of `get_close_matches`: every possibility whose
three ratio stages against the word clear the cutoff, paired with its
matched-count/total representation of the ratio. -/
def closeMatchCandidates (word : String) (possibilities : List String) :
    List ((ℕ × ℕ) × String) :=
  possibilities.filterMap fun x =>
    if clearsCutoffB (realQuickM x word) (simT x word) &&
        clearsCutoffB (quickM x word) (simT x word) &&
        clearsCutoffB (totalMatched x.data word.data) (simT x word) then
      some ((totalMatched x.data word.data, simT x word), x)
    else none

/-- The descending ranking of `heapq.nlargest` on `(score, string)` pairs:
higher ratio first, ties broken by the larger string. -/
def candGe (p q : (ℕ × ℕ) × String) : Prop :=
  (ratGeB p.1 q.1 && (!ratGeB q.1 p.1 || decide (q.2 ≤ p.2))) = true

instance : DecidableRel candGe := fun _p _q =>
  inferInstanceAs (Decidable (_ = true))

theorem candGe_iff (p q : (ℕ × ℕ) × String) :
    candGe p q ↔ (ratQ q.1 < ratQ p.1 ∨ (ratQ p.1 = ratQ q.1 ∧ q.2 ≤ p.2)) := by
  rw [candGe]
  simp only [Bool.and_eq_true, Bool.or_eq_true, Bool.not_eq_true', decide_eq_true_eq]
  constructor
  · rintro ⟨hge, hrest⟩
    have hge2 := (ratGeB_iff p.1 q.1).mp hge
    rcases hrest with hlt | hnames
    · left
      rcases lt_or_eq_of_le hge2 with h | h
      · exact h
      · exfalso
        have : ratGeB q.1 p.1 = true := (ratGeB_iff q.1 p.1).mpr (le_of_eq h.symm)
        rw [this] at hlt
        exact Bool.true_eq_false.mp hlt
    · rcases lt_or_eq_of_le hge2 with h | h
      · exact Or.inl h
      · exact Or.inr ⟨h.symm, hnames⟩
  · rintro (hlt | ⟨heq, hnames⟩)
    · refine ⟨(ratGeB_iff p.1 q.1).mpr (le_of_lt hlt), Or.inl ?_⟩
      cases hb : ratGeB q.1 p.1
      · rfl
      · exact absurd ((ratGeB_iff q.1 p.1).mp hb) (not_le_of_lt hlt)
    · exact ⟨(ratGeB_iff p.1 q.1).mpr (le_of_eq heq.symm), Or.inr hnames⟩

instance : IsTotal ((ℕ × ℕ) × String) candGe where
  total p q := by
    rw [candGe_iff, candGe_iff]
    rcases lt_trichotomy (ratQ p.1) (ratQ q.1) with h | h | h
    · exact Or.inr (Or.inl h)
    · rcases le_total p.2 q.2 with h2 | h2
      · exact Or.inr (Or.inr ⟨h.symm, h2⟩)
      · exact Or.inl (Or.inr ⟨h, h2⟩)
    · exact Or.inl (Or.inl h)

instance : IsTrans ((ℕ × ℕ) × String) candGe where
  trans p q r hpq hqr := by
    rw [candGe_iff] at *
    rcases hpq with h1 | ⟨h1, h1s⟩ <;> rcases hqr with h2 | ⟨h2, h2s⟩
    · exact Or.inl (lt_trans h2 h1)
    · exact Or.inl (by rw [← h2]; exact h1)
    · exact Or.inl (by rw [h1]; exact h2)
    · exact Or.inr ⟨h1.trans h2, le_trans h2s h1s⟩

/-- Embeds `difflib.get_close_matches(word, possibilities)` with the default
`n=3, cutoff=0.6`: filter by the ratio stages, rank descending, keep the
best three names. -/
def getCloseMatches (word : String) (possibilities : List String) : List String :=
  (((closeMatchCandidates word possibilities).insertionSort candGe).take 3).map Prod.snd

theorem mem_closeMatchCandidates (word : String) (names : List String)
    (p : (ℕ × ℕ) × String) (h : p ∈ closeMatchCandidates word names) :
    p.2 ∈ names ∧ p.1 = (totalMatched p.2.data word.data, simT p.2 word) ∧
      simCutoff ≤ ratioSM p.2 word := by
  rcases List.mem_filterMap.mp h with ⟨x, hx, hfx⟩
  cases hbv : (clearsCutoffB (realQuickM x word) (simT x word) &&
      clearsCutoffB (quickM x word) (simT x word) &&
      clearsCutoffB (totalMatched x.data word.data) (simT x word)) with
  | false => rw [hbv] at hfx; simp at hfx
  | true =>
    rw [hbv] at hfx
    rw [if_pos rfl] at hfx
    obtain rfl : ((totalMatched x.data word.data, simT x word), x) = p :=
      Option.some.inj hfx
    simp only [Bool.and_eq_true] at hbv
    exact ⟨hx, rfl, (clearsCutoffB_iff _ _).mp hbv.2⟩

theorem closeMatchCandidates_nil (word : String) (names : List String)
    (h : ∀ x ∈ names, ratioSM x word < simCutoff) :
    closeMatchCandidates word names = [] := by
  rw [closeMatchCandidates, List.filterMap_eq_nil_iff]
  intro x hx
  have hc : clearsCutoffB (totalMatched x.data word.data) (simT x word) = false := by
    rw [Bool.eq_false_iff]
    intro hc
    exact absurd ((clearsCutoffB_iff _ _).mp hc) (not_le_of_lt (h x hx))
  rw [hc, Bool.and_false]
  simp

/-- Claim C7: for every candidate key and list of default names, the typo
suggester returns a best-first-ordered list of at most three names, each a
default name whose similarity ratio to the key clears the cutoff of three
fifths; it returns the empty list when no name clears the cutoff; and on the
concrete near-miss key against the known name set of the spec scenario the
returned list is non-empty and contains the close name. -/
theorem get_close_matches_spec (word : String) (names : List String) :
    (getCloseMatches word names).length ≤ 3 ∧
    (∀ x ∈ getCloseMatches word names, x ∈ names ∧ simCutoff ≤ ratioSM x word) ∧
    (getCloseMatches word names).Pairwise (fun x y => ratioSM y word ≤ ratioSM x word) ∧
    ((∀ x ∈ names, ratioSM x word < simCutoff) → getCloseMatches word names = []) ∧
    ("host.name" ∈ getCloseMatches "hots.name" ["host.name"] ∧
      getCloseMatches "hots.name" ["host.name"] ≠ []) := by
  have hmemsort : ∀ p : (ℕ × ℕ) × String,
      p ∈ ((closeMatchCandidates word names).insertionSort candGe).take 3 →
      p ∈ closeMatchCandidates word names := by
    intro p hp
    exact (List.perm_insertionSort candGe (closeMatchCandidates word names)).mem_iff.mp
      (List.mem_of_mem_take hp)
  refine ⟨?_, ?_, ?_, ?_, ?_⟩
  · rw [getCloseMatches, List.length_map]
    exact List.length_take_le 3 _
  · intro x hx
    rcases List.mem_map.mp hx with ⟨p, hp, hsnd⟩
    subst hsnd
    have := mem_closeMatchCandidates word names p (hmemsort p hp)
    exact ⟨this.1, this.2.2⟩
  · rw [getCloseMatches]
    rw [List.pairwise_map]
    have hsorted : ((closeMatchCandidates word names).insertionSort candGe).Pairwise candGe :=
      List.sorted_insertionSort candGe (closeMatchCandidates word names)
    have htake : (((closeMatchCandidates word names).insertionSort candGe).take 3).Pairwise
        candGe :=
      hsorted.sublist (List.take_sublist 3 _)
    refine htake.imp_of_mem ?_
    intro p q hp hq hpq
    have hpc := mem_closeMatchCandidates word names p (hmemsort p hp)
    have hqc := mem_closeMatchCandidates word names q (hmemsort q hq)
    have h1 : ratQ q.1 ≤ ratQ p.1 := by
      rcases (candGe_iff p q).mp hpq with h | h
      · exact le_of_lt h
      · exact le_of_eq h.1.symm
    have hpr : ratQ p.1 = ratioSM p.2 word := by rw [hpc.2.1, ratQ, ratioSM]
    have hqr : ratQ q.1 = ratioSM q.2 word := by rw [hqc.2.1, ratQ, ratioSM]
    rw [hpr, hqr] at h1
    exact h1
  · intro h
    rw [getCloseMatches, closeMatchCandidates_nil word names h]
    rfl
  · have hconc : getCloseMatches "hots.name" ["host.name"] = ["host.name"] := by decide
    rw [hconc]
    exact ⟨by simp, by simp⟩

/-- Witness for claim C7: a key with no close match among the defaults gets
the empty suggestion list. -/
theorem get_close_matches_spec_witness : getCloseMatches "a" ["zz"] = [] := by
  apply (get_close_matches_spec "a" ["zz"]).2.2.2.1
  intro x hx
  have hx2 : x = "zz" := by simpa using hx
  subst hx2
  have h0 : totalMatched "zz".data "a".data = 0 := by decide
  rw [ratioSM, h0, show simT "zz" "a" = 3 from rfl,
    calcRatio_of_pos 0 3 (by norm_num), simCutoff]
  norm_num

/-! ## Unknown-key guard and caller-facing set/delete
(`exit_on_unknown_key`, `set_var`, `delete_var`, `enable`, `disable`) -/

/-- The failure of `exit_on_unknown_key`: the printed message names the key
and the printed close matches are the fuzzy suggestions, after which the
process exits with a non-zero status. -/
structure UnknownVariableError where
  key : String
  suggestions : List String
  deriving DecidableEq

/-- The default names of a configuration. -/
def defaultNames (defaults : List Default) : List String := defaults.map Default.name

/-- Embeds `Config.exit_on_unknown_key`: succeed when the key is among the
default names, otherwise fail carrying the key and the close matches from
the typo suggester. -/
def exitOnUnknownKey (defaults : List Default) (key : String) :
    Except UnknownVariableError Unit :=
  if key ∈ defaultNames defaults then .ok ()
  else .error ⟨key, getCloseMatches key (defaultNames defaults)⟩

/-- Observable events of one caller-facing operation, in order: a guard
check of a key, a store write, a store delete. -/
inductive CliEv where
  | guardCheck (key : String)
  | storeSet (key value : String)
  | storeDelete (key : String)
  deriving DecidableEq

/-- Embeds `Config.set_var`: guard the caller-supplied property name, then
set the override.  Returns the event trace and the outcome. -/
def setVar (defaults : List Default) (store : List (String × String))
    (key value : String) :
    List CliEv × Except UnknownVariableError (List (String × String)) :=
  match exitOnUnknownKey defaults key with
  | .error e => ([.guardCheck key], .error e)
  | .ok _ => ([.guardCheck key, .storeSet key value], .ok (setKeyItems store key value))

/-- Embeds `Config.delete_var`: guard the caller-supplied property name,
then delete the override. -/
def deleteVar (defaults : List Default) (store : List (String × String)) (key : String) :
    List CliEv × Except UnknownVariableError (List (String × String)) :=
  match exitOnUnknownKey defaults key with
  | .error e => ([.guardCheck key], .error e)
  | .ok _ => ([.guardCheck key, .storeDelete key], .ok (deleteKeyItems store key))

/-- Embeds `Config.enable`: set the override for the service's `.enabled`
key directly, with no guard call (the defaults are accepted but never
consulted, exactly as in the source). -/
def enable (_defaults : List Default) (store : List (String × String))
    (serviceName : String) :
    List CliEv × Except UnknownVariableError (List (String × String)) :=
  ([.storeSet (serviceName ++ ".enabled") "True"],
    .ok (setKeyItems store (serviceName ++ ".enabled") "True"))

/-- Embeds `Config.disable`: delete the override for the service's
`.enabled` key directly, with no guard call. -/
def disable (_defaults : List Default) (store : List (String × String))
    (serviceName : String) :
    List CliEv × Except UnknownVariableError (List (String × String)) :=
  ([.storeDelete (serviceName ++ ".enabled")],
    .ok (deleteKeyItems store (serviceName ++ ".enabled")))

/-- Counterexample to claim C4 as stated: `enable` drives a store write with
a caller-supplied service name and never invokes the guard.  With the single
default name of the spec scenario, enabling an unknown service writes the
override for an unknown key, with no guard event in the trace and no
failure. -/
theorem unknown_key_guard_counterexample :
    (enable [Default.mk "host.name" "x"] [] "ghost").1 =
      [CliEv.storeSet "ghost.enabled" "True"] ∧
    (enable [Default.mk "host.name" "x"] [] "ghost").2 = .ok [("ghost.enabled", "True")] ∧
    "ghost.enabled" ∉ defaultNames [Default.mk "host.name" "x"] := by
  refine ⟨rfl, ?_, by decide⟩
  rfl

/-- Claim C4, amended: the guard is invoked first, and decides the outcome,
for the two operations whose key is the caller-supplied property name
(`set_var` and `delete_var`): they fail with the unknown-variable error
carrying the key and its fuzzy suggestions exactly when the key is not a
default name, and otherwise perform the store operation; `enable` and
`disable` write or delete the derived `<service>.enabled` override directly
without invoking the guard. -/
theorem unknown_key_guard_amended (defaults : List Default)
    (store : List (String × String)) (key value serviceName : String) :
    ((setVar defaults store key value).1.head? = some (.guardCheck key)) ∧
    ((deleteVar defaults store key).1.head? = some (.guardCheck key)) ∧
    (key ∉ defaultNames defaults →
      setVar defaults store key value =
        ([.guardCheck key], .error ⟨key, getCloseMatches key (defaultNames defaults)⟩) ∧
      deleteVar defaults store key =
        ([.guardCheck key], .error ⟨key, getCloseMatches key (defaultNames defaults)⟩)) ∧
    (key ∈ defaultNames defaults →
      setVar defaults store key value =
        ([.guardCheck key, .storeSet key value], .ok (setKeyItems store key value)) ∧
      deleteVar defaults store key =
        ([.guardCheck key, .storeDelete key], .ok (deleteKeyItems store key))) ∧
    ((enable defaults store serviceName).1 =
      [.storeSet (serviceName ++ ".enabled") "True"]) ∧
    ((disable defaults store serviceName).1 =
      [.storeDelete (serviceName ++ ".enabled")]) := by
  by_cases hk : key ∈ defaultNames defaults
  · refine ⟨?_, ?_, fun hn => absurd hk hn, fun _ => ⟨?_, ?_⟩, rfl, rfl⟩ <;>
      simp [setVar, deleteVar, exitOnUnknownKey, hk]
  · refine ⟨?_, ?_, fun _ => ⟨?_, ?_⟩, fun hn => absurd hn hk, rfl, rfl⟩ <;>
      simp [setVar, deleteVar, exitOnUnknownKey, hk]

/-- Witness for the amended claim C4: a concrete unknown key is rejected by
`set_var` with the guard event and an empty suggestion list. -/
theorem unknown_key_guard_amended_witness :
    setVar [Default.mk "host.name" "x"] [] "ghost" "1" =
      ([CliEv.guardCheck "ghost"], .error (UnknownVariableError.mk "ghost" [])) := by
  have h := (unknown_key_guard_amended [Default.mk "host.name" "x"] [] "ghost" "1" "svc").2.2.1
    (by decide)
  rw [h.1]
  have hcm : getCloseMatches "ghost" (defaultNames [Default.mk "host.name" "x"]) = [] := by
    decide
  rw [hcm]

/-! ## Documentation display (`Config.show_docs`) -/

/-- Embeds `name.split('.')[0]`: the characters before the first dot. -/
def splitDot : List Char → List Char
  | [] => []
  | c :: rest => if c = '.' then [] else c :: splitDot rest

/-- The category of a dotted name: its first dot-segment. -/
def categoryOf (n : String) : String := String.mk (splitDot n.data)

/-- One step of the `setdefault`-and-append grouping loop of `show_docs`. -/
def addToCategory : List (String × List String) → String → String → List (String × List String)
  | [], cat, name => [(cat, [name])]
  | (c, ns) :: rest, cat, name =>
    if c = cat then (c, ns ++ [name]) :: rest
    else (c, ns) :: addToCategory rest cat name

/-- Embeds the `names_by_category` dict of `show_docs`: group the doc names
by their first dot-segment. -/
def namesByCategory (names : List String) : List (String × List String) :=
  names.foldl (fun acc n => addToCategory acc (categoryOf n) n) []

/-- Sorting of names and categories for display, as `sorted(...)`. -/
def sortStrings (l : List String) : List String := l.insertionSort fun a b => a ≤ b

/-- The errors `show_docs` can raise: a validation failure of one of the two
collections, the `ValueError` of `categories.remove('main')` when no doc
name has category `main`, and the `KeyError` of the
`defaults_by_name[name]` lookup when a doc name has no default. -/
inductive DocsError where
  | defaultsError (e : ValidationError Default)
  | docsError (e : ValidationError Doc)
  | mainCategoryMissing
  | unknownDocName (name : String)
  deriving DecidableEq

/-- One displayed documentation entry: the variable name, its doc text and
its default value (the `textwrap` console formatting around these fields is
presentation glue outside the core and not modelled). -/
structure DocsEntry where
  name : String
  text : String
  defaultValue : String
  deriving DecidableEq

/-- The displayed entry for one doc name, given the validated maps. -/
def entryFor (dm : List (String × Default)) (dcm : List (String × Doc)) (n : String) :
    DocsEntry :=
  ⟨n, ((lookupA dcm n).getD (Doc.mk n "")).doc, ((lookupA dm n).getD (Default.mk n "")).value⟩

/-- The body of one category block of `show_docs`: emit each name's entry in
order, failing like the `defaults_by_name[name]` `KeyError` when a doc name
has no default. -/
def buildCategory (dm : List (String × Default)) (dcm : List (String × Doc)) :
    List String → Except DocsError (List DocsEntry)
  | [] => .ok []
  | n :: rest =>
    match lookupA dm n with
    | none => .error (.unknownDocName n)
    | some _ => do
      let es ← buildCategory dm dcm rest
      .ok (entryFor dm dcm n :: es)

/-- The category loop of `show_docs` over the ordered category list. -/
def buildAll (dm : List (String × Default)) (dcm : List (String × Doc))
    (nbc : List (String × List String)) :
    List String → Except DocsError (List (String × List DocsEntry))
  | [] => .ok []
  | c :: rest => do
    let es ← buildCategory dm dcm (sortStrings ((lookupA nbc c).getD []))
    let rest2 ← buildAll dm dcm nbc rest
    .ok ((c, es) :: rest2)

/-- Embeds `Config.show_docs` up to the excluded pager: validate defaults
and docs, group doc names by category, order the categories with `main`
first and the rest alphabetically, and emit each category's entries with
names sorted. -/
def showDocs (defaults : List Default) (docs : List Doc) :
    Except DocsError (List (String × List DocsEntry)) :=
  match validateAndMapByName Default.name defaults with
  | .error e => .error (.defaultsError e)
  | .ok dm =>
    match validateAndMapByName Doc.name docs with
    | .error e => .error (.docsError e)
    | .ok dcm =>
      let nbc := namesByCategory (dcm.map Prod.fst)
      let cats := sortStrings (nbc.map Prod.fst)
      if "main" ∈ cats then buildAll dm dcm nbc ("main" :: cats.erase "main")
      else .error .mainCategoryMissing

theorem pairsOf_fst {α : Type} (nameOf : α → String) (vars : List α) :
    (pairsOf nameOf vars).map Prod.fst = vars.map nameOf := by
  simp [pairsOf, Function.comp]

theorem mem_fst_addToCategory (acc : List (String × List String)) (cat name c : String) :
    c ∈ (addToCategory acc cat name).map Prod.fst ↔ c ∈ acc.map Prod.fst ∨ c = cat := by
  induction acc with
  | nil => simp [addToCategory]
  | cons p rest ih =>
    rcases p with ⟨c2, ns⟩
    rw [addToCategory]
    by_cases h : c2 = cat
    · rw [if_pos h]
      subst h
      simp only [List.map_cons, List.mem_cons]
      tauto
    · rw [if_neg h]
      simp only [List.map_cons, List.mem_cons, ih]
      tauto

theorem mem_fst_groupAux (names : List String) :
    ∀ (acc : List (String × List String)) (c : String),
      c ∈ ((names.foldl (fun acc n => addToCategory acc (categoryOf n) n) acc).map Prod.fst) ↔
        c ∈ acc.map Prod.fst ∨ ∃ n ∈ names, categoryOf n = c := by
  induction names with
  | nil => intro acc c; simp
  | cons n rest ih =>
    intro acc c
    rw [List.foldl_cons, ih, mem_fst_addToCategory]
    simp only [List.mem_cons]
    constructor
    · rintro ((h | h) | h)
      · exact Or.inl h
      · exact Or.inr ⟨n, Or.inl rfl, h.symm⟩
      · rcases h with ⟨n2, hn2, hc⟩
        exact Or.inr ⟨n2, Or.inr hn2, hc⟩
    · rintro (h | ⟨n2, hn2 | hn2, hc⟩)
      · exact Or.inl (Or.inl h)
      · subst hn2
        exact Or.inl (Or.inr hc.symm)
      · exact Or.inr ⟨n2, hn2, hc⟩

theorem mem_fst_namesByCategory (names : List String) (c : String) :
    c ∈ (namesByCategory names).map Prod.fst ↔ ∃ n ∈ names, categoryOf n = c := by
  rw [namesByCategory, mem_fst_groupAux]
  simp

theorem lookupGroup_addToCategory (acc : List (String × List String)) (cat name c : String) :
    (lookupA (addToCategory acc cat name) c).getD [] =
      (lookupA acc c).getD [] ++ (if cat = c then [name] else []) := by
  induction acc with
  | nil =>
    rw [addToCategory]
    by_cases h : cat = c
    · subst h
      simp [lookupA_cons]
    · simp [lookupA_cons, h]
  | cons p rest ih =>
    rcases p with ⟨c2, ns⟩
    rw [addToCategory]
    by_cases h : c2 = cat
    · rw [if_pos h]
      subst h
      by_cases h2 : c2 = c
      · subst h2
        simp [lookupA_cons]
      · simp [lookupA_cons, h2]
    · rw [if_neg h]
      by_cases h2 : c2 = c
      · subst h2
        have hne : ¬ cat = c2 := fun he => h he.symm
        simp [lookupA_cons, hne]
      · simp [lookupA_cons, h2, ih]

theorem lookupGroup_groupAux (names : List String) :
    ∀ (acc : List (String × List String)) (c : String),
      (lookupA (names.foldl (fun acc n => addToCategory acc (categoryOf n) n) acc) c).getD [] =
        (lookupA acc c).getD [] ++ names.filter fun n => categoryOf n == c := by
  induction names with
  | nil => intro acc c; simp
  | cons n rest ih =>
    intro acc c
    rw [List.foldl_cons, ih, lookupGroup_addToCategory, List.filter_cons]
    by_cases h : categoryOf n = c
    · simp [h]
    · simp [h]

theorem lookupGroup_namesByCategory (names : List String) (c : String) :
    (lookupA (namesByCategory names) c).getD [] = names.filter fun n => categoryOf n == c := by
  rw [namesByCategory, lookupGroup_groupAux]
  simp

theorem buildCategory_ok {dm : List (String × Default)} {dcm : List (String × Doc)} :
    ∀ (names : List String) (es : List DocsEntry),
      buildCategory dm dcm names = .ok es →
      es = names.map (entryFor dm dcm) ∧ ∀ n ∈ names, ∃ d, lookupA dm n = some d := by
  intro names
  induction names with
  | nil =>
    intro es h
    simp [buildCategory] at h
    simp [← h]
  | cons n rest ih =>
    intro es h
    rw [buildCategory] at h
    cases hl : lookupA dm n with
    | none => rw [hl] at h; simp at h
    | some d =>
      rw [hl] at h
      cases hrest : buildCategory dm dcm rest with
      | error e => rw [hrest] at h; simp [Bind.bind, Except.bind] at h
      | ok es2 =>
        rw [hrest] at h
        simp only [Bind.bind, Except.bind, Except.ok.injEq] at h
        rcases ih es2 hrest with ⟨hes2, hall⟩
        subst hes2
        refine ⟨by rw [← h]; rfl, ?_⟩
        intro n2 hn2
        rcases List.mem_cons.mp hn2 with hn2 | hn2
        · exact ⟨d, hn2 ▸ hl⟩
        · exact hall n2 hn2

theorem buildAll_ok {dm : List (String × Default)} {dcm : List (String × Doc)}
    {nbc : List (String × List String)} :
    ∀ (cats : List String) (out : List (String × List DocsEntry)),
      buildAll dm dcm nbc cats = .ok out →
      out = cats.map (fun c =>
        (c, (sortStrings ((lookupA nbc c).getD [])).map (entryFor dm dcm))) ∧
      ∀ c ∈ cats, ∀ n ∈ sortStrings ((lookupA nbc c).getD []), ∃ d, lookupA dm n = some d := by
  intro cats
  induction cats with
  | nil =>
    intro out h
    simp [buildAll] at h
    simp [← h]
  | cons c rest ih =>
    intro out h
    rw [buildAll] at h
    cases hes : buildCategory dm dcm (sortStrings ((lookupA nbc c).getD [])) with
    | error e => rw [hes] at h; simp [Bind.bind, Except.bind] at h
    | ok es =>
      rw [hes] at h
      cases hrest : buildAll dm dcm nbc rest with
      | error e => rw [hrest] at h; simp [Bind.bind, Except.bind] at h
      | ok out2 =>
        rw [hrest] at h
        simp only [Bind.bind, Except.bind, Except.ok.injEq] at h
        rcases ih out2 hrest with ⟨hout2, hall2⟩
        rcases buildCategory_ok _ es hes with ⟨hes2, hall⟩
        subst hes2
        subst hout2
        refine ⟨by rw [← h]; rfl, ?_⟩
        intro c2 hc2 n hn
        rcases List.mem_cons.mp hc2 with hc2 | hc2
        · subst hc2
          exact hall n hn
        · exact hall2 c2 hc2 n hn

/-- Inversion of a successful `show_docs` run. -/
theorem showDocs_inv (defaults : List Default) (docs : List Doc)
    (out : List (String × List DocsEntry)) (h : showDocs defaults docs = .ok out) :
    ∃ dm dcm,
      validateAndMapByName Default.name defaults = .ok dm ∧
      validateAndMapByName Doc.name docs = .ok dcm ∧
      "main" ∈ sortStrings ((namesByCategory (dcm.map Prod.fst)).map Prod.fst) ∧
      buildAll dm dcm (namesByCategory (dcm.map Prod.fst))
        ("main" :: (sortStrings ((namesByCategory (dcm.map Prod.fst)).map Prod.fst)).erase "main") =
        .ok out := by
  unfold showDocs at h
  cases hdm : validateAndMapByName Default.name defaults with
  | error e => rw [hdm] at h; simp at h
  | ok dm =>
    rw [hdm] at h
    dsimp only at h
    cases hdcm : validateAndMapByName Doc.name docs with
    | error e => rw [hdcm] at h; simp at h
    | ok dcm =>
      rw [hdcm] at h
      dsimp only at h
      by_cases hm : "main" ∈ sortStrings ((namesByCategory (dcm.map Prod.fst)).map Prod.fst)
      · rw [if_pos hm] at h
        exact ⟨dm, dcm, rfl, rfl, hm, h⟩
      · rw [if_neg hm] at h
        simp at h

/-- Claim C10: `show_docs` succeeds only when some doc name has `main` as
its first dot-segment and every doc name appears among the default names;
any docs collection violating either condition makes it raise instead of
returning the grouped documentation, and in particular the empty collection
raises the missing-main error. -/
theorem show_docs_partiality (defaults : List Default) (docs : List Doc) :
    (∀ out, showDocs defaults docs = .ok out →
      (∃ d ∈ docs, categoryOf d.name = "main") ∧
      (∀ d ∈ docs, d.name ∈ defaults.map Default.name)) ∧
    (¬ ((∃ d ∈ docs, categoryOf d.name = "main") ∧
        (∀ d ∈ docs, d.name ∈ defaults.map Default.name)) →
      ∃ e, showDocs defaults docs = .error e) ∧
    showDocs [] ([] : List Doc) = .error .mainCategoryMissing := by
  have hA : ∀ out, showDocs defaults docs = .ok out →
      (∃ d ∈ docs, categoryOf d.name = "main") ∧
      (∀ d ∈ docs, d.name ∈ defaults.map Default.name) := by
    intro out h
    rcases showDocs_inv defaults docs out h with ⟨dm, dcm, hdm, hdcm, hmain, hbuild⟩
    rcases validate_ok_eq Default.name defaults dm hdm with ⟨hdmeq, _⟩
    rcases validate_ok_eq Doc.name docs dcm hdcm with ⟨hdcmeq, _⟩
    have hdcmfst : dcm.map Prod.fst = docs.map Doc.name := by
      rw [hdcmeq]
      exact pairsOf_fst _ _
    rw [hdcmfst] at hmain hbuild
    constructor
    · rw [sortStrings] at hmain
      have hmem : "main" ∈ (namesByCategory (docs.map Doc.name)).map Prod.fst :=
        (List.perm_insertionSort _ _).mem_iff.mp hmain
      rcases (mem_fst_namesByCategory _ _).mp hmem with ⟨n, hn, hcat⟩
      rcases List.mem_map.mp hn with ⟨d, hd, hdn⟩
      exact ⟨d, hd, by rw [hdn]; exact hcat⟩
    · intro d hd
      rcases buildAll_ok _ out hbuild with ⟨_, hall⟩
      have hcin : categoryOf d.name ∈ (namesByCategory (docs.map Doc.name)).map Prod.fst :=
        (mem_fst_namesByCategory _ _).mpr ⟨d.name, List.mem_map_of_mem _ hd, rfl⟩
      have hcin2 : categoryOf d.name ∈
          sortStrings ((namesByCategory (docs.map Doc.name)).map Prod.fst) := by
        rw [sortStrings]
        exact (List.perm_insertionSort _ _).mem_iff.mpr hcin
      have hcord : categoryOf d.name ∈ "main" ::
          (sortStrings ((namesByCategory (docs.map Doc.name)).map Prod.fst)).erase "main" := by
        by_cases hcm : categoryOf d.name = "main"
        · rw [hcm]
          exact List.mem_cons_self _ _
        · exact List.mem_cons_of_mem _ ((List.mem_erase_of_ne hcm).mpr hcin2)
      have hgrp : d.name ∈ sortStrings
          ((lookupA (namesByCategory (docs.map Doc.name)) (categoryOf d.name)).getD []) := by
        rw [lookupGroup_namesByCategory, sortStrings]
        refine (List.perm_insertionSort _ _).mem_iff.mpr ?_
        rw [List.mem_filter]
        exact ⟨List.mem_map_of_mem _ hd, by simp⟩
      rcases hall (categoryOf d.name) hcord d.name hgrp with ⟨d2, hl⟩
      have hmem2 : d.name ∈ dm.map Prod.fst := List.mem_map_of_mem Prod.fst (lookupA_mem hl)
      rw [hdmeq, pairsOf_fst] at hmem2
      exact hmem2
  refine ⟨hA, ?_, rfl⟩
  intro hnot
  cases hres : showDocs defaults docs with
  | ok out => exact absurd (hA out hres) hnot
  | error e => exact ⟨e, rfl⟩

/-- Witness for claim C10: with a single doc in the `main` category whose
name has a default, `show_docs` succeeds, and its success certifies both
conditions at the concrete input. -/
theorem show_docs_partiality_witness :
    Doc.mk "main.x" "dx" ∈ [Doc.mk "main.x" "dx"] ∧
    "main.x" ∈ [Default.mk "main.x" "v"].map Default.name := by
  have hA := (show_docs_partiality [Default.mk "main.x" "v"] [Doc.mk "main.x" "dx"]).1
    [("main", [DocsEntry.mk "main.x" "dx" "v"])] (by rfl)
  exact ⟨by simp, hA.2 (Doc.mk "main.x" "dx") (by simp)⟩

/-- Claim C9: on every successful run, `show_docs` groups the doc entries by
the first dot-segment of their names, presents the `main` category first
with the other categories following in alphabetical order, and sorts the
names within each category; every entry sits in the category of its own
name. -/
theorem show_docs_grouping (defaults : List Default) (docs : List Doc)
    (out : List (String × List DocsEntry)) (h : showDocs defaults docs = .ok out) :
    out.map Prod.fst =
      "main" ::
        (sortStrings ((namesByCategory (docs.map Doc.name)).map Prod.fst)).erase "main" ∧
    ((out.map Prod.fst).tail).Pairwise (fun a b : String => a ≤ b) ∧
    (∀ p ∈ out, p.2.map DocsEntry.name =
      sortStrings ((docs.map Doc.name).filter fun n => categoryOf n == p.1)) ∧
    (∀ p ∈ out, (p.2.map DocsEntry.name).Pairwise (fun a b : String => a ≤ b)) ∧
    (∀ p ∈ out, ∀ e ∈ p.2, categoryOf e.name = p.1) := by
  rcases showDocs_inv defaults docs out h with ⟨dm, dcm, hdm, hdcm, hmain, hbuild⟩
  rcases validate_ok_eq Doc.name docs dcm hdcm with ⟨hdcmeq, _⟩
  have hdcmfst : dcm.map Prod.fst = docs.map Doc.name := by
    rw [hdcmeq]
    exact pairsOf_fst _ _
  rw [hdcmfst] at hbuild
  rcases buildAll_ok _ out hbuild with ⟨houteq, _⟩
  have hfst : out.map Prod.fst = "main" ::
      (sortStrings ((namesByCategory (docs.map Doc.name)).map Prod.fst)).erase "main" := by
    rw [houteq, List.map_map]
    have hcomp : (Prod.fst ∘ fun c =>
        (c, (sortStrings ((lookupA (namesByCategory (docs.map Doc.name)) c).getD [])).map
          (entryFor dm dcm))) = id := rfl
    rw [hcomp, List.map_id]
  have hsortedcats :
      (sortStrings ((namesByCategory (docs.map Doc.name)).map Prod.fst)).Pairwise
        (fun a b : String => a ≤ b) := by
    rw [sortStrings]
    exact List.sorted_insertionSort _ _
  have hponent : ∀ p ∈ out, p.2 =
      (sortStrings ((docs.map Doc.name).filter fun n => categoryOf n == p.1)).map
        (entryFor dm dcm) := by
    intro p hp
    rw [houteq] at hp
    rcases List.mem_map.mp hp with ⟨c, _, hpe⟩
    rw [← hpe, lookupGroup_namesByCategory]
  refine ⟨hfst, ?_, ?_, ?_, ?_⟩
  · rw [hfst]
    exact hsortedcats.sublist (List.erase_sublist _ _)
  · intro p hp
    rw [hponent p hp, List.map_map]
    have hcomp : (DocsEntry.name ∘ entryFor dm dcm) = id := rfl
    rw [hcomp, List.map_id]
  · intro p hp
    rw [hponent p hp, List.map_map]
    have hcomp : (DocsEntry.name ∘ entryFor dm dcm) = id := rfl
    rw [hcomp, List.map_id, sortStrings]
    exact List.sorted_insertionSort _ _
  · intro p hp e2 he2
    rw [hponent p hp] at he2
    rcases List.mem_map.mp he2 with ⟨n, hn, hne⟩
    rw [sortStrings] at hn
    have hn2 := (List.perm_insertionSort _ _).mem_iff.mp hn
    rcases List.mem_filter.mp hn2 with ⟨_, hpred⟩
    have : categoryOf n = p.1 := by simpa using hpred
    rw [← hne]
    exact this

/-- Witness for claim C9: a concrete two-category run presents `main` before
the alphabetically later category. -/
theorem show_docs_grouping_witness :
    ([("main", [DocsEntry.mk "main.x" "dx" "v"]),
        ("alpha", [DocsEntry.mk "alpha.b" "db" "w"])].map Prod.fst : List String) =
      "main" ::
        (sortStrings ((namesByCategory
          ([Doc.mk "alpha.b" "db", Doc.mk "main.x" "dx"].map Doc.name)).map Prod.fst)).erase
          "main" :=
  (show_docs_grouping [Default.mk "main.x" "v", Default.mk "alpha.b" "w"]
    [Doc.mk "alpha.b" "db", Doc.mk "main.x" "dx"]
    [("main", [DocsEntry.mk "main.x" "dx" "v"]),
      ("alpha", [DocsEntry.mk "alpha.b" "db" "w"])] (by rfl)).1
